import Mathlib

/-!
Verification of the STM32-GUI-Builder frontend against its specification.

The development shallowly embeds the TypeScript sources:
  * `src/utils/range-parser.ts` (`parseNumericRange`, `validateNumericRange`),
  * the build-service schema check (`loadBuildSettings`),
  * the checkbox-group update handler (`updateCheckboxGroup` in BuildSettings.vue),
  * the `build-log` event listener (App.vue),
  * `handleCancel` and `build` (`useBuildProcess.ts`).

Strings are embedded as `List Char`; JavaScript `string | null | undefined`
inputs are embedded as `Option (List Char)`.  JavaScript numbers that hold
integer values are embedded as `Int` (exact arithmetic).
-/

namespace STM32

/-- JavaScript whitespace (the characters matched by `\s` and removed by
`String.prototype.trim` that are expressible in source text; exotic Unicode
whitespace is not modelled). -/
def isWs (c : Char) : Bool :=
  c = ' ' || c = '\t' || c = '\n' || c = '\r' || c = '\x0b' || c = '\x0c'

/-- ASCII decimal digit test (the character class `\d` / the digits accepted
by `parseInt` in base 10). -/
def isDig (c : Char) : Bool :=
  48 ≤ c.toNat && c.toNat ≤ 57

/-- Numeric value of a digit character. -/
def digitVal (c : Char) : Nat := c.toNat - 48

/-- Value of a string of decimal digits. -/
def natVal (ds : List Char) : Nat :=
  ds.foldl (fun a c => 10 * a + digitVal c) 0

/-- Embedding of JavaScript `String.prototype.split(sep)` for a one-character
separator: `splitC sep s` cuts `s` at every occurrence of `sep`. -/
def splitC (sep : Char) : List Char → List (List Char)
  | [] => [[]]
  | c :: cs =>
    if c = sep then [] :: splitC sep cs
    else
      match splitC sep cs with
      | [] => [[c]]
      | p :: ps => (c :: p) :: ps

/-- Embedding of JavaScript `String.prototype.trim()`. -/
def jsTrim (s : List Char) : List Char :=
  ((s.dropWhile isWs).reverse.dropWhile isWs).reverse

/-- Worker for the global regex replacement `.replace(/\s*-\s*/g, '-')`.
`pend` accumulates (reversed) the current run of whitespace, which is dropped
if the run turns out to precede a hyphen; `afterHy` is true while skipping
the whitespace that follows a hyphen. -/
def normAux : Bool → List Char → List Char → List Char
  | _, pend, [] => pend.reverse
  | afterHy, pend, c :: cs =>
    if isWs c then
      if afterHy then normAux true pend cs
      else normAux false (c :: pend) cs
    else if c = '-' then '-' :: normAux true [] cs
    else pend.reverse ++ c :: normAux false [] cs

/-- Embedding of `s.replace(/\s*-\s*/g, '-')`: every run of whitespace
adjacent to a hyphen is deleted. -/
def normAll (s : List Char) : List Char := normAux false [] s

/-- Worker for the single (non-global) replacement `.replace(/\s*-\s*/, '-')`:
only the leftmost match is rewritten, the rest of the string is kept as is. -/
def rep1Aux : List Char → List Char → List Char
  | pend, [] => pend.reverse
  | pend, c :: cs =>
    if isWs c then rep1Aux (c :: pend) cs
    else if c = '-' then '-' :: cs.dropWhile isWs
    else pend.reverse ++ c :: rep1Aux [] cs

/-- Embedding of `s.replace(/\s*-\s*/, '-')` (first match only). -/
def replace1 (s : List Char) : List Char := rep1Aux [] s

/-- The digit-prefix part of `parseInt`: longest digit prefix, `none` when
there is no digit (JavaScript `NaN`). -/
def digPre (s : List Char) : Option Int :=
  let d := s.takeWhile isDig
  if d.isEmpty then none else some (natVal d : Int)

/-- Embedding of JavaScript `parseInt(s, 10)`: skip leading whitespace, read
an optional sign and then the longest digit prefix; `none` models `NaN`. -/
def jsParseInt (s : List Char) : Option Int :=
  match s.dropWhile isWs with
  | [] => none
  | c :: r =>
    if c = '-' then (digPre r).map (fun n => -n)
    else if c = '+' then digPre r
    else digPre (c :: r)

/-- Recognizer for the token pattern `\d+(-\d+)?` of the validation regex. -/
def tokFmt (t : List Char) : Bool :=
  let d := t.takeWhile isDig
  let r := t.dropWhile isDig
  !d.isEmpty &&
    (r.isEmpty ||
      (match r with
       | c :: r2 => c = '-' && !r2.isEmpty && r2.all isDig
       | [] => false))

/-- Recognizer for `\s*\d+(-\d+)?` (a later comma-separated group of the
validation regex, which allows whitespace after the comma). -/
def wsTok (t : List Char) : Bool := tokFmt (t.dropWhile isWs)

/-- Embedding of `/^(\d+(-\d+)?)(,\s*\d+(-\d+)?)*$/.test s`.  Since neither
the token pattern nor `\s` can match a comma, the anchored regex holds
exactly when splitting at commas yields a first group matching
`\d+(-\d+)?` and further groups matching `\s*\d+(-\d+)?`. -/
def regexFormat (s : List Char) : Bool :=
  match splitC ',' s with
  | [] => false
  | p :: ps => tokFmt p && ps.all wsTok

/-- The per-part test of `validateNumericRange` (the body of the `every`
callback): trim the part, normalize whitespace around the first hyphen, then
either check a `start-end` span or a single value via `parseInt`. -/
def partSem (mn mx : Int) (part : List Char) : Bool :=
  let pt := replace1 (jsTrim part)
  if pt.contains '-' then
    match splitC '-' pt with
    | st :: en :: _ =>
      match jsParseInt (jsTrim st), jsParseInt (jsTrim en) with
      | some a, some b => decide (a ≥ mn) && decide (b ≤ mx) && decide (a ≤ b)
      | _, _ => false
    | _ => false
  else
    match jsParseInt pt with
    | some n => decide (n ≥ mn) && decide (n ≤ mx)
    | none => false

/-- Embedding of `validateNumericRange` from `src/utils/range-parser.ts`:
`null`/`undefined`/blank input is valid; otherwise the trimmed string with
whitespace normalized around hyphens must match the format regex and every
comma-separated part must pass the span/value bound check. -/
def validateNumericRange (rangeStr : Option (List Char)) (mn mx : Int) : Bool :=
  match rangeStr with
  | none => true
  | some s =>
    let trimmed := jsTrim s
    if trimmed.isEmpty then true
    else if !regexFormat (normAll trimmed) then false
    else (splitC ',' trimmed).all (partSem mn mx)

/-- The inner loop `for (let i = start; i <= end; i++) if (!types.includes(i))
types.push(i)` of `parseNumericRange`, with the number of iterations made
explicit. -/
def pushVals (acc : List Int) (a : Int) : Nat → List Int
  | 0 => acc
  | n + 1 => pushVals (if acc.contains a then acc else acc ++ [a]) (a + 1) n

/-- Push every integer of `[a, b]` not already present (`b + 1 - a`
iterations, zero when `a > b`). -/
def pushRange (acc : List Int) (a b : Int) : List Int :=
  pushVals acc a (b + 1 - a).toNat

/-- One iteration of the `for (const part of parts)` loop of
`parseNumericRange` (the part is already trimmed and nonempty). -/
def parseStep (mn mx : Int) (acc : List Int) (part : List Char) : List Int :=
  let np := replace1 part
  if np.contains '-' then
    match splitC '-' np with
    | st :: en :: _ =>
      match jsParseInt (jsTrim st), jsParseInt (jsTrim en) with
      | some a, some b =>
        if decide (a ≥ mn) && decide (b ≤ mx) && decide (a ≤ b) then pushRange acc a b
        else acc
      | _, _ => acc
    | _ => acc
  else
    match jsParseInt part with
    | some n =>
      if decide (n ≥ mn) && decide (n ≤ mx) && !acc.contains n then acc ++ [n] else acc
    | none => acc

/-- Embedding of `parseNumericRange` from `src/utils/range-parser.ts`:
split at commas, trim the parts and drop the empty ones, accumulate values
and spans with de-duplication, finally sort ascending (`.sort((a, b) => a - b)`
is embedded as an ascending sort). -/
def parseNumericRange (rangeStr : Option (List Char)) (mn mx : Int) : List Int :=
  match rangeStr with
  | none => []
  | some s =>
    if (jsTrim s).isEmpty then []
    else
      let parts := ((splitC ',' s).map jsTrim).filter (fun p => !p.isEmpty)
      List.insertionSort (· ≤ ·) (parts.foldl (parseStep mn mx) [])

/-! ### Claim-side (specification) definitions for the range parser -/

/-- The integers of the inclusive span `[a, b]` in ascending order. -/
def intRange (a b : Int) : List Int :=
  (List.range (b + 1 - a).toNat).map (fun i => a + (i : Nat))

/-- A token that is a single (non-negative) decimal integer literal. -/
def isIntTok (t : List Char) : Bool := !t.isEmpty && t.all isDig

/-- Specification reading of one token (spec wording: each token is "either a
single integer in `[min,max]` or a span `a-b` with `a<=b` and both endpoints
in `[min,max]`"). -/
def tokSemOk (t : List Char) (mn mx : Int) : Bool :=
  if isIntTok t then decide (mn ≤ (natVal t : Int)) && decide ((natVal t : Int) ≤ mx)
  else
    match splitC '-' t with
    | [a, b] =>
      isIntTok a && isIntTok b && decide ((natVal a : Int) ≤ (natVal b : Int)) &&
        decide (mn ≤ (natVal a : Int)) && decide ((natVal a : Int) ≤ mx) &&
        decide (mn ≤ (natVal b : Int)) && decide ((natVal b : Int) ≤ mx)
    | _ => false

/-- Claim C1 as stated: every comma-separated token of `s` (after trimming
surrounding whitespace and normalizing whitespace around the hyphen) is a
single integer in `[min,max]` or a span `a-b` with `a ≤ b` and both endpoints
in `[min,max]`; blank input is valid. -/
def claimValidC1 (s : List Char) (mn mx : Int) : Bool :=
  (jsTrim s).isEmpty || (splitC ',' s).all (fun p => tokSemOk (replace1 (jsTrim p)) mn mx)

/-- Amended claim C1: additionally, the trimmed string with whitespace
normalized around hyphens must match `\d+(-\d+)?(,\s*\d+(-\d+)?)*` — i.e.
besides around hyphens, whitespace may only follow a comma. -/
def claimValidAmended (s : List Char) (mn mx : Int) : Bool :=
  (jsTrim s).isEmpty ||
    (regexFormat (normAll (jsTrim s)) &&
      (splitC ',' (jsTrim s)).all (fun p => tokSemOk (replace1 (jsTrim p)) mn mx))

/-- Specification reading of the set of integers covered by one token: a
single integer literal covers itself, `a-b` covers the inclusive span. -/
def coveredSpec (t : List Char) : List Int :=
  if isIntTok t then [(natVal t : Int)]
  else
    match splitC '-' t with
    | [a, b] => if isIntTok a && isIntTok b then intRange (natVal a) (natVal b) else []
    | _ => []

/-- The specification's expansion of a range string: the sorted, duplicate-free
set-union of the integers covered by its comma-separated tokens (each token
trimmed, with whitespace normalized around the hyphen). -/
def claimUnion (s : List Char) : List Int :=
  List.insertionSort (· ≤ ·)
    (((splitC ',' (jsTrim s)).map (fun p => coveredSpec (replace1 (jsTrim p)))).flatten.dedup)

/-- The contribution of one (trimmed, nonempty) part to the accumulator of
`parseNumericRange`, as a list: the code's own per-token semantics. -/
def codeCovered (mn mx : Int) (part : List Char) : List Int :=
  let np := replace1 part
  if np.contains '-' then
    match splitC '-' np with
    | st :: en :: _ =>
      match jsParseInt (jsTrim st), jsParseInt (jsTrim en) with
      | some a, some b =>
        if decide (a ≥ mn) && decide (b ≤ mx) && decide (a ≤ b) then intRange a b else []
      | _, _ => []
    | _ => []
  else
    match jsParseInt part with
    | some n => if decide (n ≥ mn) && decide (n ≤ mx) then [n] else []
    | none => []

/-- Decimal digit character for a value below 10. -/
def digitChar (n : Nat) : Char := Char.ofNat (48 + n)

/-- Fuelled decimal rendering of a natural number (most significant digit
first); `natChars` supplies enough fuel. -/
def natCharsAux : Nat → Nat → List Char
  | 0, _ => []
  | fuel + 1, n => if n < 10 then [digitChar n] else natCharsAux fuel (n / 10) ++ [digitChar (n % 10)]

/-- Modelled from the spec: decimal rendering of a natural number, used to
"re-serialize" an expanded range (the repository has no serializer of number
lists; the spec only says the list is re-serialized as a comma-separated
string). -/
def natChars (n : Nat) : List Char := natCharsAux (n + 1) n

/-- Modelled from the spec: decimal rendering of an integer. -/
def intChars (n : Int) : List Char :=
  if n < 0 then '-' :: natChars (-n).toNat else natChars n.toNat

/-- Join with a one-character separator. -/
def intercalC (sep : Char) : List (List Char) → List Char
  | [] => []
  | [p] => p
  | p :: ps => p ++ sep :: intercalC sep ps

/-- Modelled from the spec: "re-serializing the resulting number list as a
comma-separated string" (claim C4); each number is rendered in decimal and
the renderings are joined with commas. -/
def serializeNums (l : List Int) : List Char := intercalC ',' (l.map intChars)

/-! ### Schema loading (`loadBuildSettings` in the build service) -/

/-- The part of a schema setting that `loadBuildSettings` inspects, plus its
declared `field_type` (which the code receives but does not inspect). -/
structure ScmSetting where
  field_type : String
  format : Option String
  deriving Repr, DecidableEq

/-- A parsed schema document: `build_settings` may be absent (`undefined`). -/
structure Schema where
  build_settings : Option (List ScmSetting)
  deriving Repr, DecidableEq

/-- The per-setting check of `loadBuildSettings`: `setting.format` must be a
truthy string contained in `['number', 'string', 'string[]']` (an absent
format is falsy and fails; the empty string is also falsy but is outside the
allowed set anyway). -/
def settingFormatOk (s : ScmSetting) : Bool :=
  match s.format with
  | some f => f = "number" || f = "string" || f = "string[]"
  | none => false

/-- Embedding of `loadBuildSettings`' validation of an already-parsed schema:
if `build_settings` is absent or some setting fails `settingFormatOk`, an
error is thrown (and re-wrapped by the surrounding `catch`); otherwise the
schema is returned unchanged. -/
def loadBuildSettings (schema : Schema) : Except String Schema :=
  let ok := match schema.build_settings with
    | some l => l.all settingFormatOk
    | none => false
  if ok then .ok schema
  else
    .error "Failed to load build settings: Error: Invalid schema format. Each setting must have a valid format field (number/string/string[])"

/-- Claim-side predicate for C5: the `format` tag agrees with the
`field_type` (`number` for range, `string` for select, `string[]` for
checkbox_group). -/
def formatAgrees (s : ScmSetting) : Bool :=
  (s.field_type = "range" && s.format = some "number") ||
    (s.field_type = "select" && s.format = some "string") ||
    (s.field_type = "checkbox_group" && s.format = some "string[]")

/-! ### Checkbox-group updates (`updateCheckboxGroup` in BuildSettings.vue) -/

/-- The new selection computed by `updateCheckboxGroup` from the current
selection and the toggled checkbox: add the value when checked (if absent),
remove it when unchecked. -/
def newSelection (cur : List String) (value : String) (checked : Bool) : List String :=
  if checked && !cur.contains value then cur ++ [value]
  else if !checked then cur.filter (fun v => v ≠ value)
  else cur

/-- The validation error text produced for an under-populated checkbox
group. -/
def minSelectedMsg (k : Nat) : String :=
  "At least " ++ toString k ++ " option(s) must be selected"

/-- Embedding of `updateCheckboxGroup` (BuildSettings.vue): returns the
committed model value and the validation-error string for the setting.
`setting.min_selected && newValues.length < setting.min_selected` is truthy
exactly when `min_selected` is present, nonzero and larger than the new
selection; then the error is recorded and the old value kept, otherwise the
error is cleared and the new selection committed via `updateValue`. -/
def updateCheckboxGroup (minSel : Option Nat) (cur : List String) (value : String)
    (checked : Bool) : List String × String :=
  let nv := newSelection cur value checked
  match minSel with
  | some k => if 0 < k ∧ nv.length < k then (cur, minSelectedMsg k) else (nv, "")
  | none => (nv, "")

/-- The toggled selection computed by `updateOptions` (AdditionalOptions.vue):
remove the option when present, append it when absent. -/
def toggledSelection (cur : List String) (opt : String) : List String :=
  if cur.contains opt then cur.filter (fun o => o ≠ opt) else cur ++ [opt]

/-- Embedding of `updateOptions` (AdditionalOptions.vue): same `min_selected`
guard as `updateCheckboxGroup`, over the toggled selection; on failure the
error is recorded and no `update:value` is emitted (the old value is kept). -/
def updateOptions (minSel : Option Nat) (cur : List String) (opt : String) :
    List String × String :=
  let nv := toggledSelection cur opt
  match minSel with
  | some k => if 0 < k ∧ nv.length < k then (cur, minSelectedMsg k) else (nv, "")
  | none => (nv, "")

/-! ### The `build-log` listener (App.vue `onMounted`) -/

/-- `'stdout:'` as a character list. -/
def stdoutTag : List Char := "stdout:".data

/-- `'stderr:'` as a character list. -/
def stderrTag : List Char := "stderr:".data

/-- A formatted log line `[timestamp] text`. -/
def fmtLine (ts text : List Char) : List Char :=
  '[' :: ts ++ ']' :: ' ' :: text

/-- `'[ERROR] '` as a character list. -/
def errorTag : List Char := "[ERROR] ".data

/-- Embedding of the `build-log` listener body (App.vue): given the formatted
timestamp, the event payload, the current log list and the current
`currentStdout` value, return the new log list and the new `currentStdout`.
`startsWith` is embedded as equality of the first seven characters and
`substring(7)` as dropping seven characters. -/
def buildLogStep (ts payload : List Char) (logs : List (List Char)) (cur : List Char) :
    List (List Char) × List Char :=
  if payload.take 7 = stdoutTag then
    let line := jsTrim (payload.drop 7)
    (if line.isEmpty then logs else logs ++ [fmtLine ts line], line)
  else if payload.take 7 = stderrTag then
    let line := jsTrim (payload.drop 7)
    (if line.isEmpty then logs else logs ++ [fmtLine ts (errorTag ++ line)], cur)
  else
    (logs ++ [fmtLine ts payload], cur)

/-! ### Build status, cancellation and `build` (`useBuildProcess.ts`) -/

/-- The `BuildStatusType` union. -/
inductive BuildStatus where
  | idle | building | success | error | cancelled
  deriving Repr, DecidableEq

/-- A build message (`BuildMessage`). -/
structure BuildMessage where
  type : String
  text : String
  deriving Repr, DecidableEq

/-- The reactive state of `useBuildProcess` that `build`/`handleCancel`
read and write. -/
structure BuildProcState where
  status : BuildStatus
  isCancelling : Bool
  messages : List BuildMessage
  deriving Repr, DecidableEq

/-- Embedding of `handleCancel`: when no cancellation is in flight and a
build is running, the backend `cancelBuild` command is invoked (the returned
flag), the status becomes `cancelled` and `isCancelling` ends up `false`
again (it is set around the awaited call); otherwise nothing happens. -/
def handleCancel (st : BuildProcState) : BuildProcState × Bool :=
  if !st.isCancelling && st.status = BuildStatus.building then
    ({ st with status := BuildStatus.cancelled, isCancelling := false }, true)
  else (st, false)

/-- The `Settings` record validated by `build` (string fields are `null`
initially). -/
structure UserSettings where
  projectPath : Option String
  buildDir : Option String
  cubeIdeExePath : Option String
  workspacePath : Option String
  deriving Repr, DecidableEq

/-- JavaScript falsiness of an optional string: `null`/`undefined` or the
empty string. -/
def isFalsy (v : Option String) : Bool :=
  match v with
  | none => true
  | some s => s = ""

/-- `requiredFields` together with their accessors, in the order of the
source. -/
def requiredFields : List (String × (UserSettings → Option String)) :=
  [("projectPath", UserSettings.projectPath), ("buildDir", UserSettings.buildDir),
    ("cubeIdeExePath", UserSettings.cubeIdeExePath), ("workspacePath", UserSettings.workspacePath)]

/-- `missingFields` as computed by `build`. -/
def missingFields (s : UserSettings) : List String :=
  (requiredFields.filter (fun f => isFalsy (f.2 s))).map (fun f => f.1)

/-- Embedding of `build` up to the `executeBuild` invocation decision: when a
required field is missing, the status becomes `error`, exactly one error
message naming the missing fields is appended, and `executeBuild` is not
invoked (returned flag `false`); otherwise the status becomes `building`,
the messages are cleared and `executeBuild` is invoked (flag `true`; what
happens after the awaited call depends on the external backend and is not
modelled). -/
def build (s : UserSettings) (st : BuildProcState) : BuildProcState × Bool :=
  let missing := missingFields s
  if missing.isEmpty then
    ({ st with status := BuildStatus.building, messages := [] }, true)
  else
    let msg : BuildMessage := ⟨"error", "Missing required fields: " ++ String.intercalate ", " missing⟩
    ({ st with status := BuildStatus.error, messages := st.messages ++ [msg] }, false)

/-! ### Proof-side notions: whitespace/digit runs and token shapes -/

/-- A (possibly empty) run of whitespace characters. -/
def WsRun (w : List Char) : Prop := ∀ c ∈ w, isWs c = true

/-- A nonempty run of digit characters. -/
def DigRun (d : List Char) : Prop := d ≠ [] ∧ ∀ c ∈ d, isDig c = true

/-- The raw shape of a comma-separated part accepted by the format regex
after hyphen-normalization: optional leading whitespace, digits, and
optionally a hyphen (with whitespace around it) followed by digits. -/
def ShapeTok (p : List Char) : Prop :=
  (∃ w d, WsRun w ∧ DigRun d ∧ p = w ++ d) ∨
    (∃ w d1 w1 w2 d2, WsRun w ∧ DigRun d1 ∧ WsRun w1 ∧ WsRun w2 ∧ DigRun d2 ∧
      p = w ++ d1 ++ w1 ++ '-' :: (w2 ++ d2))

/-- Append a suffix to the last block of a split. -/
def appendLastL : List (List Char) → List Char → List (List Char)
  | [], w => [w]
  | [p], w => [p ++ w]
  | p :: q :: ps, w => p :: appendLastL (q :: ps) w

/-! ### Character-class facts -/

theorem isWs_char_facts {c : Char} (h : isWs c = true) :
    c ≠ '-' ∧ c ≠ ',' ∧ isDig c = false := by
  simp only [isWs, Bool.or_eq_true, decide_eq_true_eq] at h
  rcases h with ((((h | h) | h) | h) | h) | h <;> subst h <;> exact ⟨by decide, by decide, by decide⟩

theorem isDig_char_facts {c : Char} (h : isDig c = true) :
    isWs c = false ∧ c ≠ '-' ∧ c ≠ '+' ∧ c ≠ ',' := by
  have hd := h
  simp only [isDig, Bool.and_eq_true, decide_eq_true_eq] at hd
  refine ⟨?_, ?_, ?_, ?_⟩
  · cases hw : isWs c
    · rfl
    · rw [(isWs_char_facts hw).2.2] at h
      exact absurd h (by simp)
  all_goals (rintro rfl; exact absurd hd (by decide))

/-! ### Facts about `splitC` -/

theorem splitC_ne_nil (sep : Char) (s : List Char) : splitC sep s ≠ [] := by
  induction s with
  | nil => simp [splitC]
  | cons c cs ih =>
    simp only [splitC]
    split
    · simp
    · rcases h : splitC sep cs with _ | ⟨p, ps⟩
      · simp
      · simp [h]

theorem splitC_cons_of_ne {sep c : Char} (hc : c ≠ sep) (cs : List Char) :
    ∀ h t, splitC sep cs = h :: t → splitC sep (c :: cs) = (c :: h) :: t := by
  intro h t hs
  simp only [splitC, if_neg hc, hs]

theorem splitC_sep_not_mem (sep : Char) (s : List Char) :
    ∀ p ∈ splitC sep s, sep ∉ p := by
  induction s with
  | nil =>
    intro p hp
    simp only [splitC, List.mem_singleton] at hp
    subst hp; simp
  | cons c cs ih =>
    intro p hp
    by_cases hc : c = sep
    · subst hc
      simp only [splitC, if_pos rfl] at hp
      rcases List.mem_cons.mp hp with hp | hp
      · subst hp; simp
      · exact ih p hp
    · rcases h : splitC sep cs with _ | ⟨q, qs⟩
      · exact absurd h (splitC_ne_nil sep cs)
      · rw [splitC_cons_of_ne hc cs q qs h] at hp
        rcases List.mem_cons.mp hp with hp | hp
        · subst hp
          intro hm
          rcases List.mem_cons.mp hm with hm | hm
          · exact hc hm.symm
          · exact ih q (by rw [h]; exact List.mem_cons_self q qs) hm
        · exact ih p (by rw [h]; exact List.mem_cons_of_mem q hp)

theorem splitC_append_of_not_mem {sep : Char} {A : List Char} (hA : sep ∉ A) (B : List Char) :
    ∀ h t, splitC sep B = h :: t → splitC sep (A ++ B) = (A ++ h) :: t := by
  induction A with
  | nil => intro h t hs; simpa using hs
  | cons c cs ih =>
    intro h t hs
    have hc : c ≠ sep := fun hcc => hA (hcc ▸ List.mem_cons_self c cs)
    have ih' := ih (fun hm => hA (List.mem_cons_of_mem c hm)) h t hs
    simpa using splitC_cons_of_ne hc (cs ++ B) (cs ++ h) t ih'

theorem splitC_of_not_mem {sep : Char} {s : List Char} (hs : sep ∉ s) :
    splitC sep s = [s] := by
  induction s with
  | nil => rfl
  | cons c cs ih =>
    have hc : c ≠ sep := fun hcc => hs (hcc ▸ List.mem_cons_self c cs)
    have ih' := ih (fun hm => hs (List.mem_cons_of_mem c hm))
    simpa using splitC_cons_of_ne hc cs cs [] ih'

theorem splitC_append_last {sep : Char} {B : List Char} (hB : sep ∉ B) (x : List Char) :
    splitC sep (x ++ B) = appendLastL (splitC sep x) B := by
  induction x with
  | nil => simp [splitC, appendLastL, splitC_of_not_mem hB]
  | cons c cs ih =>
    by_cases hc : c = sep
    · subst hc
      rw [List.cons_append]
      simp only [splitC, if_pos rfl]
      rw [ih]
      rcases h : splitC c cs with _ | ⟨p, ps⟩
      · exact absurd h (splitC_ne_nil c cs)
      · rcases ps with _ | ⟨q, qs⟩ <;> simp [appendLastL]
    · rcases h : splitC sep cs with _ | ⟨p, ps⟩
      · exact absurd h (splitC_ne_nil sep cs)
      · rw [h] at ih
        rcases ps with _ | ⟨q, qs⟩
        · have h2 : splitC sep (cs ++ B) = (p ++ B) :: [] := by
            rw [ih]; rfl
          rw [List.cons_append, splitC_cons_of_ne hc (cs ++ B) (p ++ B) [] h2,
            splitC_cons_of_ne hc cs p [] h]
          simp [appendLastL]
        · have h2 : splitC sep (cs ++ B) = p :: appendLastL (q :: qs) B := by
            rw [ih]; rfl
          rw [List.cons_append, splitC_cons_of_ne hc (cs ++ B) p _ h2,
            splitC_cons_of_ne hc cs p (q :: qs) h]
          simp [appendLastL]

/-! ### Facts about `jsTrim` and whitespace runs -/

theorem wsRun_takeWhile (s : List Char) : WsRun (s.takeWhile isWs) := by
  intro c hc
  exact List.mem_takeWhile_imp hc

theorem wsRun_reverse {w : List Char} (h : WsRun w) : WsRun w.reverse := by
  intro c hc
  exact h c (List.mem_reverse.mp hc)

theorem wsRun_not_mem_comma {w : List Char} (h : WsRun w) : ',' ∉ w := by
  intro hm
  exact (isWs_char_facts (h ',' hm)).2.1 rfl

theorem wsRun_not_mem_hyphen {w : List Char} (h : WsRun w) : '-' ∉ w := by
  intro hm
  exact (isWs_char_facts (h '-' hm)).1 rfl

theorem dropWhile_ws_of_wsRun {w : List Char} (h : WsRun w) : w.dropWhile isWs = [] := by
  induction w with
  | nil => rfl
  | cons c cs ih =>
    rw [List.dropWhile_cons, if_pos (h c (List.mem_cons_self c cs))]
    exact ih (fun x hx => h x (List.mem_cons_of_mem c hx))

theorem dropWhile_ws_append {w : List Char} (h : WsRun w) (x : List Char) :
    (w ++ x).dropWhile isWs = x.dropWhile isWs := by
  induction w with
  | nil => rfl
  | cons c cs ih =>
    rw [List.cons_append, List.dropWhile_cons, if_pos (h c (List.mem_cons_self c cs))]
    exact ih (fun y hy => h y (List.mem_cons_of_mem c hy))

theorem dropWhile_append_of_ne_nil {x : List Char} (hx : x.dropWhile isWs ≠ []) (y : List Char) :
    (x ++ y).dropWhile isWs = x.dropWhile isWs ++ y := by
  induction x with
  | nil => exact absurd rfl hx
  | cons c cs ih =>
    by_cases hc : isWs c
    · rw [List.cons_append, List.dropWhile_cons, if_pos hc]
      rw [List.dropWhile_cons, if_pos hc] at hx ⊢
      exact ih hx
    · rw [List.cons_append, List.dropWhile_cons, if_neg (by simp [hc]),
        List.dropWhile_cons, if_neg (by simp [hc]), List.cons_append]

theorem jsTrim_ws_left {w : List Char} (h : WsRun w) (x : List Char) :
    jsTrim (w ++ x) = jsTrim x := by
  unfold jsTrim
  rw [dropWhile_ws_append h]

theorem jsTrim_of_wsRun {s : List Char} (h : WsRun s) : jsTrim s = [] := by
  unfold jsTrim
  rw [dropWhile_ws_of_wsRun h]
  rfl

theorem wsRun_of_dropWhile_nil {x : List Char} (hx : x.dropWhile isWs = []) : WsRun x := by
  induction x with
  | nil => intro c hc; simp at hc
  | cons a as ih =>
    rw [List.dropWhile_cons] at hx
    by_cases ha : isWs a
    · rw [if_pos ha] at hx
      intro c hc
      rcases List.mem_cons.mp hc with rfl | hc
      · exact ha
      · exact ih hx c hc
    · rw [if_neg ha] at hx
      simp at hx

theorem jsTrim_ws_right {w : List Char} (h : WsRun w) (x : List Char) :
    jsTrim (x ++ w) = jsTrim x := by
  by_cases hx : x.dropWhile isWs = []
  · have hxw : WsRun x := wsRun_of_dropWhile_nil hx
    have hall : WsRun (x ++ w) := by
      intro c hc
      rcases List.mem_append.mp hc with hc | hc
      · exact hxw c hc
      · exact h c hc
    rw [jsTrim_of_wsRun hall, jsTrim_of_wsRun hxw]
  · unfold jsTrim
    rw [dropWhile_append_of_ne_nil hx, List.reverse_append, dropWhile_ws_append (wsRun_reverse h)]

/-- Every string is a whitespace run, its trimmed core, and another
whitespace run. -/
theorem jsTrim_decomposition (s : List Char) :
    ∃ w₀ w₁, WsRun w₀ ∧ WsRun w₁ ∧ s = w₀ ++ (jsTrim s ++ w₁) := by
  refine ⟨s.takeWhile isWs, ((s.dropWhile isWs).reverse.takeWhile isWs).reverse,
    wsRun_takeWhile s, wsRun_reverse (wsRun_takeWhile _), ?_⟩
  conv_lhs => rw [← List.takeWhile_append_dropWhile isWs s]
  congr 1
  conv_lhs => rw [← List.reverse_reverse (s.dropWhile isWs),
    ← List.takeWhile_append_dropWhile isWs (s.dropWhile isWs).reverse]
  rw [List.reverse_append]
  rfl

theorem map_jsTrim_appendLastL {w : List Char} (h : WsRun w) :
    ∀ l : List (List Char), l ≠ [] → (appendLastL l w).map jsTrim = l.map jsTrim := by
  intro l
  induction l with
  | nil => intro hl; exact absurd rfl hl
  | cons p ps ih =>
    intro _
    rcases ps with _ | ⟨q, qs⟩
    · simp [appendLastL, jsTrim_ws_right h]
    · rw [appendLastL, List.map_cons, List.map_cons, ih (by simp)]

/-- Splitting a string at commas and trimming each part gives the same
trimmed parts as splitting the trimmed string. -/
theorem map_jsTrim_splitC_jsTrim (s : List Char) :
    (splitC ',' s).map jsTrim = (splitC ',' (jsTrim s)).map jsTrim := by
  obtain ⟨w₀, w₁, hw₀, hw₁, hs⟩ := jsTrim_decomposition s
  have hlast := splitC_append_last (wsRun_not_mem_comma hw₁) (jsTrim s)
  rcases hct : splitC ',' (jsTrim s ++ w₁) with _ | ⟨h', t'⟩
  · exact absurd hct (splitC_ne_nil _ _)
  · have hfull := splitC_append_of_not_mem (wsRun_not_mem_comma hw₀) (jsTrim s ++ w₁) h' t' hct
    rw [← hs] at hfull
    rw [hfull, List.map_cons, jsTrim_ws_left hw₀, ← List.map_cons, ← hct, hlast,
      map_jsTrim_appendLastL hw₁ _ (splitC_ne_nil _ _)]

/-! ### Computation rules and preservation facts for `normAux`/`normAll` -/

theorem normAux_ws_false {c : Char} (hc : isWs c = true) (pend cs : List Char) :
    normAux false pend (c :: cs) = normAux false (c :: pend) cs := by
  simp [normAux, hc]

theorem normAux_ws_true {c : Char} (hc : isWs c = true) (pend cs : List Char) :
    normAux true pend (c :: cs) = normAux true pend cs := by
  simp [normAux, hc]

theorem normAux_hyphen (m : Bool) (pend cs : List Char) :
    normAux m pend ('-' :: cs) = '-' :: normAux true [] cs := by
  simp [normAux, isWs]

theorem normAux_other {c : Char} (hws : isWs c = false) (hhy : c ≠ '-') (m : Bool)
    (pend cs : List Char) :
    normAux m pend (c :: cs) = pend.reverse ++ c :: normAux false [] cs := by
  simp [normAux, hws, hhy]

theorem normAux_wsRun_false {w : List Char} (hw : WsRun w) :
    ∀ pend t, normAux false pend (w ++ t) = normAux false (w.reverse ++ pend) t := by
  induction w with
  | nil => intro pend t; rfl
  | cons c cs ih =>
    intro pend t
    rw [List.cons_append, normAux_ws_false (hw c (List.mem_cons_self c cs)),
      ih (fun x hx => hw x (List.mem_cons_of_mem c hx)) (c :: pend) t]
    simp

theorem normAux_wsRun_true {w : List Char} (hw : WsRun w) :
    ∀ pend t, normAux true pend (w ++ t) = normAux true pend t := by
  induction w with
  | nil => intro pend t; rfl
  | cons c cs ih =>
    intro pend t
    rw [List.cons_append, normAux_ws_true (hw c (List.mem_cons_self c cs)),
      ih (fun x hx => hw x (List.mem_cons_of_mem c hx)) pend t]

theorem normAll_wsRun {w : List Char} (hw : WsRun w) : normAll w = w := by
  calc normAll w = normAux false [] (w ++ []) := by simp [normAll]
    _ = normAux false (w.reverse ++ []) [] := normAux_wsRun_false hw [] []
    _ = w := by simp [normAux]

/-- Over a nonempty block of characters that are neither whitespace nor a
hyphen, `normAux` copies the block and flushes the pending whitespace. -/
theorem normAux_othRun {d : List Char} (hd : d ≠ []) (hdc : ∀ c ∈ d, isWs c = false ∧ c ≠ '-') :
    ∀ pend t, normAux false pend (d ++ t) = pend.reverse ++ (d ++ normAux false [] t) := by
  induction d with
  | nil => exact absurd rfl hd
  | cons c cs ih =>
    intro pend t
    obtain ⟨hcw, hch⟩ := hdc c (List.mem_cons_self c cs)
    rcases cs with _ | ⟨c2, cs2⟩
    · rw [List.cons_append, normAux_other hcw hch]
      simp
    · rw [List.cons_append, normAux_other hcw hch,
        ih (by simp) (fun x hx => hdc x (List.mem_cons_of_mem c hx)) [] t]
      simp

theorem normAux_true_eq (z : List Char) :
    normAux true [] z = normAll (z.dropWhile isWs) := by
  have hz := (List.takeWhile_append_dropWhile isWs z).symm
  rw [normAll]
  conv_lhs => rw [hz]
  rw [normAux_wsRun_true (wsRun_takeWhile z) [] (z.dropWhile isWs)]
  rcases hd : z.dropWhile isWs with _ | ⟨c, r⟩
  · rfl
  · have hcw : isWs c = false := by
      have := List.head?_dropWhile_not isWs z
      rw [hd] at this
      simpa using this
    by_cases hch : c = '-'
    · subst hch
      rw [normAux_hyphen, normAux_hyphen]
    · rw [normAux_other hcw hch, normAux_other hcw hch]

theorem normAux_sublist : ∀ (z : List Char) (m : Bool) (pend : List Char),
    (normAux m pend z).Sublist (pend.reverse ++ z) := by
  intro z
  induction z with
  | nil => intro m pend; simp [normAux]
  | cons c cs ih =>
    intro m pend
    by_cases hcw : isWs c
    · cases m
      · rw [normAux_ws_false hcw]
        have := ih false (c :: pend)
        simpa using this
      · rw [normAux_ws_true hcw]
        have := (ih true pend).trans (List.Sublist.append_left (List.sublist_cons_self c cs) pend.reverse)
        exact this
    · have hcw' : isWs c = false := by simpa using hcw
      by_cases hch : c = '-'
      · subst hch
        rw [normAux_hyphen]
        have h1 : ('-' :: normAux true [] cs).Sublist ('-' :: cs) := by
          have := ih true []
          simpa using List.Sublist.cons₂ '-' (by simpa using ih true [])
        exact h1.trans (List.sublist_append_right pend.reverse ('-' :: cs))
      · rw [normAux_other hcw' hch]
        have h1 : (c :: normAux false [] cs).Sublist (c :: cs) := by
          simpa using List.Sublist.cons₂ c (by simpa using ih false [])
        exact List.Sublist.append_left h1 pend.reverse

theorem mem_normAux_of_not_ws {c : Char} (hcw : isWs c = false) :
    ∀ (z : List Char) (m : Bool) (pend : List Char), c ∈ z → c ∈ normAux m pend z := by
  intro z
  induction z with
  | nil => intro m pend hc; simp at hc
  | cons a as ih =>
    intro m pend hc
    rcases List.mem_cons.mp hc with rfl | hc2
    · by_cases hah : c = '-'
      · subst hah
        rw [normAux_hyphen]
        exact List.mem_cons_self _ _
      · rw [normAux_other hcw hah]
        exact List.mem_append.mpr (Or.inr (List.mem_cons_self _ _))
    · by_cases haw : isWs a
      · cases m
        · rw [normAux_ws_false haw]; exact ih false (a :: pend) hc2
        · rw [normAux_ws_true haw]; exact ih true pend hc2
      · have haw' : isWs a = false := by simpa using haw
        by_cases hah : a = '-'
        · subst hah
          rw [normAux_hyphen]
          exact List.mem_cons_of_mem _ (ih true [] hc2)
        · rw [normAux_other haw' hah]
          exact List.mem_append.mpr (Or.inr (List.mem_cons_of_mem _ (ih false [] hc2)))

theorem normAux_of_no_hyphen {z : List Char} (hz : '-' ∉ z) :
    ∀ pend, normAux false pend z = pend.reverse ++ z := by
  induction z with
  | nil => intro pend; simp [normAux]
  | cons c cs ih =>
    intro pend
    have hch : c ≠ '-' := fun h => hz (h ▸ List.mem_cons_self c cs)
    have hcs : '-' ∉ cs := fun h => hz (List.mem_cons_of_mem c h)
    by_cases hcw : isWs c
    · rw [normAux_ws_false hcw, ih hcs (c :: pend)]
      simp
    · rw [normAux_other (by simpa using hcw) hch, ih hcs []]
      simp

theorem normAll_of_no_hyphen {z : List Char} (hz : '-' ∉ z) : normAll z = z := by
  simpa using normAux_of_no_hyphen hz []

/-- If the normalized string consists of digits only, so did the original:
hyphens are preserved by normalization, and without a hyphen nothing is
removed at all. -/
theorem all_dig_of_normAll {z : List Char} (h : (normAll z).all isDig = true) :
    z.all isDig = true := by
  by_cases hz : '-' ∈ z
  · have : ('-' : Char) ∈ normAll z := mem_normAux_of_not_ws (by decide) z false [] hz
    rw [List.all_eq_true] at h
    have := h '-' this
    simp [isDig] at this
  · rwa [normAll_of_no_hyphen hz] at h

/-! ### `takeWhile`/`dropWhile` over satisfying blocks, `tokFmt` evaluation -/

theorem takeWhile_append_of_all {pp : Char → Bool} {d : List Char}
    (hd : ∀ c ∈ d, pp c = true) (x : List Char) :
    (d ++ x).takeWhile pp = d ++ x.takeWhile pp := by
  induction d with
  | nil => rfl
  | cons c cs ih =>
    rw [List.cons_append, List.takeWhile_cons, if_pos (hd c (List.mem_cons_self c cs)),
      ih (fun y hy => hd y (List.mem_cons_of_mem c hy)), List.cons_append]

theorem dropWhile_append_of_all {pp : Char → Bool} {d : List Char}
    (hd : ∀ c ∈ d, pp c = true) (x : List Char) :
    (d ++ x).dropWhile pp = x.dropWhile pp := by
  induction d with
  | nil => rfl
  | cons c cs ih =>
    rw [List.cons_append, List.dropWhile_cons, if_pos (hd c (List.mem_cons_self c cs)),
      ih (fun y hy => hd y (List.mem_cons_of_mem c hy))]

theorem tokFmt_head_not_dig {x0 : Char} (h0 : isDig x0 = false) (xr : List Char) :
    tokFmt (x0 :: xr) = false := by
  simp [tokFmt, List.takeWhile_cons, h0]

theorem tokFmt_append_head_bad {D : List Char} (hD : ∀ c ∈ D, isDig c = true) {x0 : Char}
    (h0 : isDig x0 = false) (h0h : x0 ≠ '-') (xr : List Char) :
    tokFmt (D ++ x0 :: xr) = false := by
  simp only [tokFmt, takeWhile_append_of_all hD, dropWhile_append_of_all hD,
    List.takeWhile_cons, List.dropWhile_cons, h0, if_false]
  simp [h0h]

theorem tokFmt_digits_hyphen {D : List Char} (hD : DigRun D) (Y : List Char) :
    tokFmt (D ++ '-' :: Y) = (!Y.isEmpty && Y.all isDig) := by
  have hdh : isDig '-' = false := by decide
  obtain ⟨c, cs, rfl⟩ := List.exists_cons_of_ne_nil hD.1
  simp only [tokFmt, takeWhile_append_of_all hD.2, dropWhile_append_of_all hD.2,
    List.takeWhile_cons, List.dropWhile_cons, hdh, if_false]
  simp

theorem wsTok_ws_append {W : List Char} (hW : WsRun W) (X : List Char) :
    wsTok (W ++ X) = wsTok X := by
  unfold wsTok
  rw [dropWhile_ws_append hW]

theorem wsTok_eq_tokFmt_of_head {x0 : Char} (h0 : isWs x0 = false) (xr : List Char) :
    wsTok (x0 :: xr) = tokFmt (x0 :: xr) := by
  unfold wsTok
  rw [List.dropWhile_cons, if_neg (by simp [h0])]

/-- Inversion: a part whose hyphen-normalization matches `\s*\d+(-\d+)?` has
the raw shape `ws* digits (ws* '-' ws* digits)?`. -/
theorem shapeTok_of_wsTok_normAll {p : List Char} (h : wsTok (normAll p) = true) :
    ShapeTok p := by
  rcases hq : p.dropWhile isWs with _ | ⟨c, r⟩
  · have hp : WsRun p := wsRun_of_dropWhile_nil hq
    rw [normAll_wsRun hp, wsTok, hq] at h
    exact absurd h (by decide)
  · have hcw : isWs c = false := by
      have h0 := List.head?_dropWhile_not isWs p
      rw [hq] at h0
      simpa using h0
    have hsplit : p = p.takeWhile isWs ++ (c :: r) := by
      rw [← hq, List.takeWhile_append_dropWhile]
    have hW : WsRun (p.takeWhile isWs) := wsRun_takeWhile p
    have hnormp : normAll p = normAux false (p.takeWhile isWs).reverse (c :: r) := by
      conv_lhs => rw [normAll]
      conv_lhs => rw [hsplit]
      rw [normAux_wsRun_false hW [] (c :: r)]
      simp
    by_cases hch : c = '-'
    · subst hch
      rw [hnormp, normAux_hyphen, wsTok_eq_tokFmt_of_head (by decide) _,
        tokFmt_head_not_dig (by decide)] at h
      simp at h
    · by_cases hcd : isDig c
      · have hqsplit : (c :: r) = (c :: r).takeWhile isDig ++ (c :: r).dropWhile isDig :=
          (List.takeWhile_append_dropWhile isDig (c :: r)).symm
        have hD : DigRun ((c :: r).takeWhile isDig) := by
          constructor
          · rw [List.takeWhile_cons, if_pos hcd]; simp
          · intro x hx; exact List.mem_takeWhile_imp hx
        have hDoth : ∀ x ∈ (c :: r).takeWhile isDig, isWs x = false ∧ x ≠ '-' := by
          intro x hx
          have hf := isDig_char_facts (hD.2 x hx)
          exact ⟨hf.1, hf.2.1⟩
        have hnorm3 : normAll p =
            p.takeWhile isWs ++
              ((c :: r).takeWhile isDig ++ normAll ((c :: r).dropWhile isDig)) := by
          rw [hnormp]
          conv_lhs => rw [hqsplit]
          rw [normAux_othRun hD.1 hDoth (p.takeWhile isWs).reverse _]
          simp [normAll]
        have hDeq : (c :: r).takeWhile isDig = c :: r.takeWhile isDig := by
          rw [List.takeWhile_cons, if_pos hcd]
        rw [hnorm3, wsTok_ws_append hW, hDeq, List.cons_append,
          wsTok_eq_tokFmt_of_head hcw, ← List.cons_append, ← hDeq] at h
        rcases hs : (c :: r).dropWhile isDig with _ | ⟨e, s'⟩
        · refine Or.inl ⟨p.takeWhile isWs, (c :: r).takeWhile isDig, hW, hD, ?_⟩
          conv_lhs => rw [hsplit]
          conv_lhs => rw [hqsplit]
          rw [hs]
          simp
        · have hed : isDig e = false := by
            have h0 := List.head?_dropWhile_not isDig (c :: r)
            rw [hs] at h0
            simpa using h0
          rcases hs2 : ((c :: r).dropWhile isDig).dropWhile isWs with _ | ⟨g, s3⟩
          · have hsws : WsRun ((c :: r).dropWhile isDig) := wsRun_of_dropWhile_nil hs2
            rw [normAll_wsRun hsws, hs] at h
            have hew : isWs e = true := hsws e (by rw [hs]; exact List.mem_cons_self e s')
            rw [tokFmt_append_head_bad hD.2 (isWs_char_facts hew).2.2 (isWs_char_facts hew).1 s'] at h
            simp at h
          · have hgw : isWs g = false := by
              have h0 := List.head?_dropWhile_not isWs ((c :: r).dropWhile isDig)
              rw [hs2] at h0
              simpa using h0
            have hssplit : (c :: r).dropWhile isDig =
                ((c :: r).dropWhile isDig).takeWhile isWs ++ (g :: s3) := by
              rw [← hs2, List.takeWhile_append_dropWhile]
            have hW1 : WsRun (((c :: r).dropWhile isDig).takeWhile isWs) := wsRun_takeWhile _
            have hXs : normAll ((c :: r).dropWhile isDig) =
                normAux false (((c :: r).dropWhile isDig).takeWhile isWs).reverse (g :: s3) := by
              conv_lhs => rw [normAll]
              conv_lhs => rw [hssplit]
              rw [normAux_wsRun_false hW1 [] (g :: s3)]
              simp
            by_cases hgh : g = '-'
            · subst hgh
              rw [hXs, normAux_hyphen, normAux_true_eq, tokFmt_digits_hyphen hD] at h
              rw [Bool.and_eq_true] at h
              obtain ⟨hY1, hY2⟩ := h
              have hr4ne : s3.dropWhile isWs ≠ [] := by
                intro h0
                rw [h0] at hY1
                simp [normAll, normAux] at hY1
              have hr4dig := all_dig_of_normAll hY2
              refine Or.inr ⟨p.takeWhile isWs, (c :: r).takeWhile isDig,
                ((c :: r).dropWhile isDig).takeWhile isWs, s3.takeWhile isWs,
                s3.dropWhile isWs, hW, hD, hW1, wsRun_takeWhile s3,
                ⟨hr4ne, fun x hx => List.all_eq_true.mp hr4dig x hx⟩, ?_⟩
              conv_lhs => rw [hsplit]
              conv_lhs => rw [hqsplit]
              conv_lhs => rw [hssplit]
              conv_lhs => rw [← List.takeWhile_append_dropWhile isWs s3]
              simp
            · rw [hXs, normAux_other hgw hgh, List.reverse_reverse] at h
              rcases hW1case : ((c :: r).dropWhile isDig).takeWhile isWs with _ | ⟨w1h, w1t⟩
              · rw [hW1case, List.nil_append] at h
                have hge : g = e := by
                  rw [hW1case, List.nil_append, hs] at hssplit
                  injection hssplit with h1 h2
                  exact h1.symm
                rw [tokFmt_append_head_bad hD.2 (hge ▸ hed) hgh _] at h
                simp at h
              · rw [hW1case] at h
                have hw1h : isWs w1h = true := by
                  refine hW1 w1h ?_
                  rw [hW1case]
                  exact List.mem_cons_self _ _
                rw [List.cons_append,
                  tokFmt_append_head_bad hD.2 (isWs_char_facts hw1h).2.2 (isWs_char_facts hw1h).1 _] at h
                simp at h
      · have hcd' : isDig c = false := by simpa using hcd
        have hnormp2 : normAll p = p.takeWhile isWs ++ (c :: normAux false [] r) := by
          rw [hnormp, normAux_other hcw hch]
          simp
        rw [hnormp2, wsTok_ws_append hW, wsTok_eq_tokFmt_of_head hcw,
          tokFmt_head_not_dig hcd'] at h
        simp at h

/-! ### Evaluating the parser's string operations on shaped parts -/

theorem dropWhile_eq_self_of_all_false {pp : Char → Bool} {x : List Char}
    (hx : ∀ c ∈ x, pp c = false) : x.dropWhile pp = x := by
  cases x with
  | nil => rfl
  | cons c cs =>
    rw [List.dropWhile_cons, if_neg (by simp [hx c (List.mem_cons_self c cs)])]

theorem jsTrim_of_not_ws_mem {x : List Char} (hx : ∀ c ∈ x, isWs c = false) : jsTrim x = x := by
  unfold jsTrim
  rw [dropWhile_eq_self_of_all_false hx,
    dropWhile_eq_self_of_all_false (fun c hc => hx c (List.mem_reverse.mp hc)),
    List.reverse_reverse]

theorem jsTrim_of_head_last {a b : Char} (ha : isWs a = false) (hb : isWs b = false)
    (mid : List Char) : jsTrim ((a :: mid) ++ [b]) = (a :: mid) ++ [b] := by
  show jsTrim (a :: (mid ++ [b])) = a :: (mid ++ [b])
  unfold jsTrim
  rw [List.dropWhile_cons, if_neg (by simp [ha])]
  have h1 : (a :: (mid ++ [b])).reverse = b :: (mid.reverse ++ [a]) := by simp
  rw [h1, List.dropWhile_cons, if_neg (by simp [hb]), ← h1, List.reverse_reverse]

theorem digRun_not_ws {d : List Char} (hd : DigRun d) : ∀ c ∈ d, isWs c = false :=
  fun c hc => (isDig_char_facts (hd.2 c hc)).1

theorem digRun_not_hyphen {d : List Char} (hd : DigRun d) : ('-' : Char) ∉ d :=
  fun hm => (isDig_char_facts (hd.2 '-' hm)).2.1 rfl

theorem jsTrim_digRun {d : List Char} (hd : DigRun d) : jsTrim d = d :=
  jsTrim_of_not_ws_mem (digRun_not_ws hd)

/-- The trimmed form of a shaped span part: inner whitespace around the
hyphen is not surrounding whitespace, so trimming changes nothing. -/
theorem jsTrim_span {d1 w1 w2 d2 : List Char} (hd1 : DigRun d1) (hd2 : DigRun d2) :
    jsTrim (d1 ++ w1 ++ '-' :: (w2 ++ d2)) = d1 ++ w1 ++ '-' :: (w2 ++ d2) := by
  obtain ⟨a, d1t, rfl⟩ := List.exists_cons_of_ne_nil hd1.1
  have ha : isWs a = false := (isDig_char_facts (hd1.2 a (List.mem_cons_self a d1t))).1
  have hb : isWs (d2.getLast hd2.1) = false :=
    (isDig_char_facts (hd2.2 _ (List.getLast_mem hd2.1))).1
  have hshape : (a :: d1t) ++ w1 ++ '-' :: (w2 ++ d2) =
      (a :: (d1t ++ w1 ++ '-' :: (w2 ++ d2.dropLast))) ++ [d2.getLast hd2.1] := by
    conv_lhs => rw [← List.dropLast_append_getLast hd2.1]
    simp
  rw [hshape, jsTrim_of_head_last ha hb]

theorem rep1Aux_othRun {d : List Char} (hdc : ∀ c ∈ d, isWs c = false ∧ c ≠ '-')
    (t : List Char) : rep1Aux [] (d ++ t) = d ++ rep1Aux [] t := by
  induction d with
  | nil => rfl
  | cons c cs ih =>
    obtain ⟨hcw, hch⟩ := hdc c (List.mem_cons_self c cs)
    rw [List.cons_append, rep1Aux]
    rw [if_neg (by simp [hcw]), if_neg hch]
    rw [ih (fun x hx => hdc x (List.mem_cons_of_mem c hx))]
    rfl

theorem rep1Aux_ws {c : Char} (hc : isWs c = true) (pend cs : List Char) :
    rep1Aux pend (c :: cs) = rep1Aux (c :: pend) cs := by
  simp [rep1Aux, hc]

theorem rep1Aux_hyphen (pend cs : List Char) :
    rep1Aux pend ('-' :: cs) = '-' :: cs.dropWhile isWs := by
  simp [rep1Aux, isWs]

theorem rep1Aux_wsRun_hyphen {w : List Char} (hw : WsRun w) :
    ∀ pend z, rep1Aux pend (w ++ '-' :: z) = '-' :: z.dropWhile isWs := by
  induction w with
  | nil => intro pend z; exact rep1Aux_hyphen pend z
  | cons c cs ih =>
    intro pend z
    rw [List.cons_append, rep1Aux_ws (hw c (List.mem_cons_self c cs)),
      ih (fun x hx => hw x (List.mem_cons_of_mem c hx))]

theorem replace1_digRun {d : List Char} (hd : ∀ c ∈ d, isDig c = true) : replace1 d = d := by
  have h := rep1Aux_othRun (fun c hc =>
    ⟨(isDig_char_facts (hd c hc)).1, (isDig_char_facts (hd c hc)).2.1⟩) []
  unfold replace1
  calc rep1Aux [] d = rep1Aux [] (d ++ []) := by simp
    _ = d ++ rep1Aux [] [] := h
    _ = d := by simp [rep1Aux]

/-- The single hyphen-normalization of a shaped span part deletes exactly the
whitespace around the hyphen. -/
theorem replace1_span {d1 w1 w2 d2 : List Char} (hd1 : DigRun d1) (hw1 : WsRun w1)
    (hw2 : WsRun w2) (hd2 : DigRun d2) :
    replace1 (d1 ++ w1 ++ '-' :: (w2 ++ d2)) = d1 ++ '-' :: d2 := by
  unfold replace1
  rw [List.append_assoc, rep1Aux_othRun (fun c hc =>
    ⟨(isDig_char_facts (hd1.2 c hc)).1, (isDig_char_facts (hd1.2 c hc)).2.1⟩),
    rep1Aux_wsRun_hyphen hw1, dropWhile_ws_append hw2,
    dropWhile_eq_self_of_all_false (digRun_not_ws hd2)]

theorem splitC_hyphen_span {d1 d2 : List Char} (h1 : ('-' : Char) ∉ d1)
    (h2 : ('-' : Char) ∉ d2) : splitC '-' (d1 ++ '-' :: d2) = [d1, d2] := by
  have hB : splitC '-' ('-' :: d2) = [] :: [d2] := by
    simp [splitC, splitC_of_not_mem h2]
  have := splitC_append_of_not_mem h1 ('-' :: d2) [] [d2] hB
  simpa using this

theorem takeWhile_eq_self_of_all {pp : Char → Bool} {d : List Char}
    (hd : ∀ c ∈ d, pp c = true) : d.takeWhile pp = d := by
  have := takeWhile_append_of_all hd ([] : List Char)
  simpa using this

theorem jsParseInt_digRun {d : List Char} (hd : DigRun d) : jsParseInt d = some (natVal d : Int) := by
  unfold jsParseInt
  rw [dropWhile_eq_self_of_all_false (digRun_not_ws hd)]
  obtain ⟨c, cs, rfl⟩ := List.exists_cons_of_ne_nil hd.1
  have hfacts := isDig_char_facts (hd.2 c (List.mem_cons_self c cs))
  change (if c = '-' then (digPre cs).map (fun n => -n)
    else if c = '+' then digPre cs else digPre (c :: cs)) = some (natVal (c :: cs) : Int)
  rw [if_neg hfacts.2.1, if_neg hfacts.2.2.1]
  simp only [digPre, takeWhile_eq_self_of_all hd.2]
  simp

theorem contains_hyphen_of_digRun {d : List Char} (hd : ∀ c ∈ d, isDig c = true) :
    d.contains '-' = false := by
  have : ('-' : Char) ∉ d := fun hm => (isDig_char_facts (hd '-' hm)).2.1 rfl
  simpa using this

theorem contains_hyphen_span (d1 d2 : List Char) :
    (d1 ++ '-' :: d2).contains '-' = true := by
  simp

theorem isIntTok_digRun {d : List Char} (hd : DigRun d) : isIntTok d = true := by
  obtain ⟨c, cs, rfl⟩ := List.exists_cons_of_ne_nil hd.1
  simp [isIntTok, List.all_eq_true.mpr hd.2]

theorem isIntTok_span_false (d1 d2 : List Char) : isIntTok (d1 ++ '-' :: d2) = false := by
  cases h : isIntTok (d1 ++ '-' :: d2)
  · rfl
  · simp only [isIntTok, Bool.and_eq_true, List.all_eq_true] at h
    have := h.2 '-' (by simp)
    simp [isDig] at this

/-! ### Per-part agreement between the code's checks and the spec's reading -/

theorem jsTrim_shape_left {w d : List Char} (hw : WsRun w) (hd : DigRun d) :
    jsTrim (w ++ d) = d := by
  rw [jsTrim_ws_left hw, jsTrim_digRun hd]

theorem jsTrim_shape_right {w d1 w1 w2 d2 : List Char} (hw : WsRun w) (hd1 : DigRun d1)
    (hd2 : DigRun d2) :
    jsTrim (w ++ d1 ++ w1 ++ '-' :: (w2 ++ d2)) = d1 ++ w1 ++ '-' :: (w2 ++ d2) := by
  have h1 : w ++ d1 ++ w1 ++ '-' :: (w2 ++ d2) = w ++ (d1 ++ w1 ++ '-' :: (w2 ++ d2)) := by
    simp [List.append_assoc]
  rw [h1, jsTrim_ws_left hw, jsTrim_span hd1 hd2]

theorem jsTrim_shape_ne_nil {p : List Char} (hp : ShapeTok p) : jsTrim p ≠ [] := by
  rcases hp with ⟨w, d, hw, hd, rfl⟩ | ⟨w, d1, w1, w2, d2, hw, hd1, hw1, hw2, hd2, rfl⟩
  · rw [jsTrim_shape_left hw hd]
    exact hd.1
  · rw [jsTrim_shape_right hw hd1 hd2]
    obtain ⟨a, d1t, rfl⟩ := List.exists_cons_of_ne_nil hd1.1
    simp

/-- On a part of the accepted raw shape, the code's `parseInt`-based bound
check coincides with the specification's reading of the (trimmed,
hyphen-normalized) token. -/
theorem partSem_eq_tokSemOk_of_shape {p : List Char} (hp : ShapeTok p) (mn mx : Int) :
    partSem mn mx p = tokSemOk (replace1 (jsTrim p)) mn mx := by
  rcases hp with ⟨w, d, hw, hd, rfl⟩ | ⟨w, d1, w1, w2, d2, hw, hd1, hw1, hw2, hd2, rfl⟩
  · have hrep : replace1 (jsTrim (w ++ d)) = d := by
      rw [jsTrim_shape_left hw hd, replace1_digRun hd.2]
    simp only [partSem, tokSemOk, hrep, contains_hyphen_of_digRun hd.2,
      jsParseInt_digRun hd, isIntTok_digRun hd, Bool.false_eq_true, if_false, if_true]
  · have hrep : replace1 (jsTrim (w ++ d1 ++ w1 ++ '-' :: (w2 ++ d2))) = d1 ++ '-' :: d2 := by
      rw [jsTrim_shape_right hw hd1 hd2, replace1_span hd1 hw1 hw2 hd2]
    simp only [partSem, tokSemOk, hrep, contains_hyphen_span, if_true,
      splitC_hyphen_span (digRun_not_hyphen hd1) (digRun_not_hyphen hd2),
      jsTrim_digRun hd1, jsTrim_digRun hd2, jsParseInt_digRun hd1, jsParseInt_digRun hd2,
      isIntTok_span_false, Bool.false_eq_true, if_false, isIntTok_digRun hd1,
      isIntTok_digRun hd2]
    rw [Bool.eq_iff_iff]
    simp only [Bool.and_eq_true, decide_eq_true_eq, ge_iff_le, true_and]
    omega

/-- On a shaped part that passes the bound check, the code's expansion agrees
with the specification's covered set of the normalized token. -/
theorem codeCovered_eq_coveredSpec_of_shape {p : List Char} (hp : ShapeTok p) {mn mx : Int}
    (hsem : partSem mn mx p = true) :
    codeCovered mn mx (jsTrim p) = coveredSpec (replace1 (jsTrim p)) := by
  rcases hp with ⟨w, d, hw, hd, rfl⟩ | ⟨w, d1, w1, w2, d2, hw, hd1, hw1, hw2, hd2, rfl⟩
  · have htrim : jsTrim (w ++ d) = d := jsTrim_shape_left hw hd
    have hrep : replace1 (jsTrim (w ++ d)) = d := by rw [htrim, replace1_digRun hd.2]
    simp only [partSem, hrep, contains_hyphen_of_digRun hd.2, Bool.false_eq_true, if_false,
      jsParseInt_digRun hd, Bool.and_eq_true, decide_eq_true_eq, ge_iff_le] at hsem
    simp only [codeCovered, coveredSpec, htrim, hrep, replace1_digRun hd.2,
      contains_hyphen_of_digRun hd.2, Bool.false_eq_true, if_false, jsParseInt_digRun hd,
      isIntTok_digRun hd, if_true]
    rw [if_pos (by simp [ge_iff_le, hsem.1, hsem.2])]
  · have htrim : jsTrim (w ++ d1 ++ w1 ++ '-' :: (w2 ++ d2)) = d1 ++ w1 ++ '-' :: (w2 ++ d2) :=
      jsTrim_shape_right hw hd1 hd2
    have hrep : replace1 (jsTrim (w ++ d1 ++ w1 ++ '-' :: (w2 ++ d2))) = d1 ++ '-' :: d2 := by
      rw [htrim, replace1_span hd1 hw1 hw2 hd2]
    have hrep2 : replace1 (d1 ++ w1 ++ '-' :: (w2 ++ d2)) = d1 ++ '-' :: d2 :=
      replace1_span hd1 hw1 hw2 hd2
    simp only [partSem, hrep, contains_hyphen_span, if_true,
      splitC_hyphen_span (digRun_not_hyphen hd1) (digRun_not_hyphen hd2),
      jsTrim_digRun hd1, jsTrim_digRun hd2, jsParseInt_digRun hd1, jsParseInt_digRun hd2,
      Bool.and_eq_true, decide_eq_true_eq, ge_iff_le] at hsem
    simp only [codeCovered, coveredSpec, htrim, hrep2, contains_hyphen_span, if_true,
      splitC_hyphen_span (digRun_not_hyphen hd1) (digRun_not_hyphen hd2),
      jsTrim_digRun hd1, jsTrim_digRun hd2, jsParseInt_digRun hd1, jsParseInt_digRun hd2,
      isIntTok_span_false, Bool.false_eq_true, if_false, isIntTok_digRun hd1,
      isIntTok_digRun hd2, Bool.true_and]
    rw [if_pos (by simp [ge_iff_le, hsem.1.1, hsem.1.2, hsem.2])]

/-! ### Splitting at commas commutes with global hyphen-normalization -/

theorem normAux_nil_eq (m : Bool) (pend : List Char) : normAux m pend [] = pend.reverse := by
  cases m <;> rfl

theorem splitC_normAux : ∀ (t : List Char) (m : Bool) (pend : List Char), ',' ∉ pend →
    ∀ h tl, splitC ',' t = h :: tl →
      splitC ',' (normAux m pend t) = normAux m pend h :: tl.map normAll := by
  intro t
  induction t with
  | nil =>
    intro m pend hpend h tl hs
    simp only [splitC] at hs
    injection hs with h1 h2
    subst h1; subst h2
    rw [normAux_nil_eq, splitC_of_not_mem (fun hm => hpend (List.mem_reverse.mp hm))]
    rfl
  | cons c cs ih =>
    intro m pend hpend h tl hs
    obtain ⟨h2, tl2, hcs⟩ : ∃ h2 tl2, splitC ',' cs = h2 :: tl2 := by
      rcases hx : splitC ',' cs with _ | ⟨a, b⟩
      · exact absurd hx (splitC_ne_nil ',' cs)
      · exact ⟨a, b, rfl⟩
    by_cases hc : c = ','
    · subst hc
      simp only [splitC, if_pos rfl, hcs] at hs
      injection hs with hh htl
      subst hh; subst htl
      have hcw : isWs ',' = false := by decide
      have hch : (',' : Char) ≠ '-' := by decide
      rw [normAux_other hcw hch]
      have hIH := ih false [] (by simp) h2 tl2 hcs
      have hB : splitC ',' (',' :: normAux false [] cs) =
          [] :: normAux false [] h2 :: tl2.map normAll := by
        simp [splitC, hIH]
      rw [splitC_append_of_not_mem (fun hm => hpend (List.mem_reverse.mp hm)) _ _ _ hB,
        normAux_nil_eq]
      simp [normAll]
    · rw [splitC_cons_of_ne hc cs h2 tl2 hcs] at hs
      injection hs with hh htl
      subst hh; subst htl
      by_cases hcw : isWs c
      · have hp' : ',' ∉ c :: pend := by
          intro hm
          rcases List.mem_cons.mp hm with hm | hm
          · exact (isWs_char_facts hcw).2.1 hm.symm
          · exact hpend hm
        cases m
        · rw [normAux_ws_false hcw, ih false (c :: pend) hp' h2 tl2 hcs, normAux_ws_false hcw]
        · rw [normAux_ws_true hcw, ih true pend hpend h2 tl2 hcs, normAux_ws_true hcw]
      · have hcw' : isWs c = false := by simpa using hcw
        by_cases hch : c = '-'
        · subst hch
          rw [normAux_hyphen]
          have hIH := ih true [] (by simp) h2 tl2 hcs
          have hstep : splitC ',' ('-' :: normAux true [] cs) =
              ('-' :: normAux true [] h2) :: tl2.map normAll := by
            have hstep2 := splitC_append_of_not_mem (show (',' : Char) ∉ ['-'] by decide)
              (normAux true [] cs) _ _ hIH
            simpa using hstep2
          rw [hstep, normAux_hyphen]
        · rw [normAux_other hcw' hch]
          have hIH := ih false [] (by simp) h2 tl2 hcs
          have hA : ',' ∉ pend.reverse ++ [c] := by
            intro hm
            rcases List.mem_append.mp hm with hm | hm
            · exact hpend (List.mem_reverse.mp hm)
            · exact hc (List.mem_singleton.mp hm).symm
          have hstep := splitC_append_of_not_mem hA (normAux false [] cs) _ _ hIH
          rw [show pend.reverse ++ c :: normAux false [] cs =
            (pend.reverse ++ [c]) ++ normAux false [] cs by simp, hstep,
            normAux_other hcw' hch]
          simp

theorem splitC_normAll (t : List Char) :
    splitC ',' (normAll t) = (splitC ',' t).map normAll := by
  obtain ⟨h, tl, hs⟩ : ∃ h tl, splitC ',' t = h :: tl := by
    rcases hx : splitC ',' t with _ | ⟨a, b⟩
    · exact absurd hx (splitC_ne_nil ',' t)
    · exact ⟨a, b, rfl⟩
  rw [normAll, splitC_normAux t false [] (by simp) h tl hs, hs]
  simp [normAll]

theorem wsTok_of_tokFmt {q : List Char} (h : tokFmt q = true) : wsTok q = true := by
  cases q with
  | nil => exact absurd h (by decide)
  | cons a as =>
    by_cases had : isDig a
    · rw [wsTok_eq_tokFmt_of_head (isDig_char_facts had).1]
      exact h
    · rw [tokFmt_head_not_dig (by simpa using had)] at h
      simp at h

/-- A string accepted by the format regex (after global normalization) has
only parts of the accepted raw shape. -/
theorem shape_of_regexFormat {t : List Char} (hreg : regexFormat (normAll t) = true) :
    ∀ p ∈ splitC ',' t, ShapeTok p := by
  intro p hp
  apply shapeTok_of_wsTok_normAll
  rw [regexFormat, splitC_normAll t] at hreg
  rcases hs : splitC ',' t with _ | ⟨h, tl⟩
  · exact absurd hs (splitC_ne_nil ',' t)
  · rw [hs] at hreg hp
    simp only [List.map_cons, Bool.and_eq_true, List.all_eq_true] at hreg
    rcases List.mem_cons.mp hp with rfl | hp
    · exact wsTok_of_tokFmt hreg.1
    · exact hreg.2 (normAll p) (List.mem_map_of_mem normAll hp)

theorem all_congr_mem {l : List (List Char)} {f g : List Char → Bool}
    (h : ∀ x ∈ l, f x = g x) : l.all f = l.all g := by
  induction l with
  | nil => rfl
  | cons a as ih =>
    simp only [List.all_cons, h a (List.mem_cons_self a as),
      ih (fun x hx => h x (List.mem_cons_of_mem a hx))]

/-! ### Membership and distinctness of the accumulator of `parseNumericRange` -/

theorem mem_intRange {a b x : Int} :
    x ∈ intRange a b ↔ a ≤ x ∧ x < a + ((b + 1 - a).toNat : Int) := by
  rw [intRange, List.mem_map]
  constructor
  · rintro ⟨i, hi, rfl⟩
    rw [List.mem_range] at hi
    omega
  · rintro ⟨h1, h2⟩
    refine ⟨(x - a).toNat, ?_, ?_⟩
    · rw [List.mem_range]
      omega
    · omega

theorem mem_pushVals : ∀ (f : Nat) (acc : List Int) (a x : Int),
    x ∈ pushVals acc a f ↔ x ∈ acc ∨ (a ≤ x ∧ x < a + (f : Int)) := by
  intro f
  induction f with
  | zero =>
    intro acc a x
    rw [pushVals]
    constructor
    · exact Or.inl
    · rintro (h | h)
      · exact h
      · omega
  | succ n ih =>
    intro acc a x
    rw [pushVals, ih]
    by_cases hmem : a ∈ acc
    · have hc : acc.contains a = true := by simpa using hmem
      rw [if_pos hc]
      constructor
      · rintro (h | h)
        · exact Or.inl h
        · right; omega
      · rintro (h | h)
        · exact Or.inl h
        · rcases eq_or_lt_of_le h.1 with heq | hlt
          · exact Or.inl (heq ▸ hmem)
          · right
            constructor
            · omega
            · have := h.2
              push_cast at this ⊢
              omega
    · rw [if_neg (by simpa using hmem)]
      constructor
      · rintro (h | h)
        · rcases List.mem_append.mp h with h | h
          · exact Or.inl h
          · right
            rw [List.mem_singleton] at h
            omega
        · right
          push_cast at h ⊢
          omega
      · rintro (h | h)
        · exact Or.inl (List.mem_append.mpr (Or.inl h))
        · rcases eq_or_lt_of_le h.1 with heq | hlt
          · exact Or.inl (List.mem_append.mpr (Or.inr (List.mem_singleton.mpr heq.symm)))
          · right
            constructor
            · omega
            · have := h.2
              push_cast at this ⊢
              omega

theorem nodup_pushVals : ∀ (f : Nat) (acc : List Int) (a : Int),
    acc.Nodup → (pushVals acc a f).Nodup := by
  intro f
  induction f with
  | zero => intro acc a h; exact h
  | succ n ih =>
    intro acc a h
    rw [pushVals]
    apply ih
    by_cases hmem : a ∈ acc
    · have hc : acc.contains a = true := by simpa using hmem
      rw [if_pos hc]
      exact h
    · rw [if_neg (by simpa using hmem)]
      simp [List.nodup_append, h, hmem]

theorem mem_pushRange {acc : List Int} {a b x : Int} :
    x ∈ pushRange acc a b ↔ x ∈ acc ∨ x ∈ intRange a b := by
  rw [pushRange, mem_pushVals, mem_intRange]

theorem mem_parseStep (mn mx : Int) (acc : List Int) (part : List Char) (x : Int) :
    x ∈ parseStep mn mx acc part ↔ x ∈ acc ∨ x ∈ codeCovered mn mx part := by
  by_cases h1 : (replace1 part).contains '-' = true
  · rcases hsp : splitC '-' (replace1 part) with _ | ⟨st, rest⟩
    · simp only [parseStep, codeCovered, h1, hsp]
      show x ∈ acc ↔ x ∈ acc ∨ x ∈ ([] : List Int)
      simp
    · rcases rest with _ | ⟨en, rest2⟩
      · simp only [parseStep, codeCovered, h1, hsp]
        show x ∈ acc ↔ x ∈ acc ∨ x ∈ ([] : List Int)
        simp
      · simp only [parseStep, codeCovered, h1, hsp]
        rcases hpa : jsParseInt (jsTrim st) with _ | a
        · show x ∈ acc ↔ x ∈ acc ∨ x ∈ ([] : List Int)
          simp
        · rcases hpb : jsParseInt (jsTrim en) with _ | b
          · show x ∈ acc ↔ x ∈ acc ∨ x ∈ ([] : List Int)
            simp
          · show (x ∈ if (decide (a ≥ mn) && decide (b ≤ mx) && decide (a ≤ b)) = true
                then pushRange acc a b else acc) ↔
              x ∈ acc ∨ x ∈ (if (decide (a ≥ mn) && decide (b ≤ mx) && decide (a ≤ b)) = true
                then intRange a b else [])
            by_cases hcond : (decide (a ≥ mn) && decide (b ≤ mx) && decide (a ≤ b)) = true
            · rw [if_pos hcond, if_pos hcond, mem_pushRange]
            · rw [if_neg hcond, if_neg hcond]
              simp
  · have h1' : (replace1 part).contains '-' = false := by simpa using h1
    rcases hpn : jsParseInt part with _ | n
    · simp only [parseStep, codeCovered, h1', hpn]
      show x ∈ acc ↔ x ∈ acc ∨ x ∈ ([] : List Int)
      simp
    · simp only [parseStep, codeCovered, h1', hpn]
      show (x ∈ if (decide (n ≥ mn) && decide (n ≤ mx) && !acc.contains n) = true
          then acc ++ [n] else acc) ↔
        x ∈ acc ∨ x ∈ (if (decide (n ≥ mn) && decide (n ≤ mx)) = true then [n] else [])
      by_cases hcond : (decide (n ≥ mn) && decide (n ≤ mx)) = true
      · by_cases hacc : n ∈ acc
        · have hc : acc.contains n = true := by simpa using hacc
          rw [if_neg (show ¬(decide (n ≥ mn) && decide (n ≤ mx) && !acc.contains n) = true by
            rw [hc]; simp), if_pos hcond]
          constructor
          · exact Or.inl
          · rintro (h | h)
            · exact h
            · rw [List.mem_singleton] at h
              exact h ▸ hacc
        · have hc : acc.contains n = false := by simpa using hacc
          rw [if_pos (show (decide (n ≥ mn) && decide (n ≤ mx) && !acc.contains n) = true by
            rw [hc, hcond]; rfl), if_pos hcond]
          exact List.mem_append
      · have hcond2 : (decide (n ≥ mn) && decide (n ≤ mx)) = false := by simpa using hcond
        rw [if_neg (show ¬(decide (n ≥ mn) && decide (n ≤ mx) && !acc.contains n) = true by
          rw [hcond2]; simp), if_neg hcond]
        simp

theorem nodup_parseStep (mn mx : Int) (acc : List Int) (part : List Char) (h : acc.Nodup) :
    (parseStep mn mx acc part).Nodup := by
  by_cases h1 : (replace1 part).contains '-' = true
  · rcases hsp : splitC '-' (replace1 part) with _ | ⟨st, rest⟩
    · simp only [parseStep, h1, hsp]
      exact h
    · rcases rest with _ | ⟨en, rest2⟩
      · simp only [parseStep, h1, hsp]
        exact h
      · simp only [parseStep, h1, hsp]
        rcases hpa : jsParseInt (jsTrim st) with _ | a
        · exact h
        · rcases hpb : jsParseInt (jsTrim en) with _ | b
          · exact h
          · by_cases hcond : (decide (a ≥ mn) && decide (b ≤ mx) && decide (a ≤ b)) = true
            · show (if (decide (a ≥ mn) && decide (b ≤ mx) && decide (a ≤ b)) = true
                  then pushRange acc a b else acc).Nodup
              rw [if_pos hcond]
              exact nodup_pushVals _ _ _ h
            · show (if (decide (a ≥ mn) && decide (b ≤ mx) && decide (a ≤ b)) = true
                  then pushRange acc a b else acc).Nodup
              rw [if_neg hcond]
              exact h
  · have h1' : (replace1 part).contains '-' = false := by simpa using h1
    rcases hpn : jsParseInt part with _ | n
    · simp only [parseStep, h1', hpn]
      exact h
    · simp only [parseStep, h1', hpn]
      by_cases hcond : (decide (n ≥ mn) && decide (n ≤ mx) && !acc.contains n) = true
      · show (if (decide (n ≥ mn) && decide (n ≤ mx) && !acc.contains n) = true
            then acc ++ [n] else acc).Nodup
        rw [if_pos hcond]
        have hnc : acc.contains n = false := by
          cases hcc : acc.contains n
          · rfl
          · rw [hcc] at hcond
            simp at hcond
        have hnin : n ∉ acc := by simpa using hnc
        simp [List.nodup_append, h, hnin]
      · show (if (decide (n ≥ mn) && decide (n ≤ mx) && !acc.contains n) = true
            then acc ++ [n] else acc).Nodup
        rw [if_neg hcond]
        exact h

theorem mem_foldl_parseStep (mn mx : Int) : ∀ (parts : List (List Char)) (acc : List Int)
    (x : Int), x ∈ parts.foldl (parseStep mn mx) acc ↔
      x ∈ acc ∨ ∃ p ∈ parts, x ∈ codeCovered mn mx p := by
  intro parts
  induction parts with
  | nil => intro acc x; simp
  | cons p ps ih =>
    intro acc x
    rw [List.foldl_cons, ih, mem_parseStep]
    constructor
    · rintro ((h | h) | ⟨q, hq, hx⟩)
      · exact Or.inl h
      · exact Or.inr ⟨p, List.mem_cons_self p ps, h⟩
      · exact Or.inr ⟨q, List.mem_cons_of_mem p hq, hx⟩
    · rintro (h | ⟨q, hq, hx⟩)
      · exact Or.inl (Or.inl h)
      · rcases List.mem_cons.mp hq with rfl | hq
        · exact Or.inl (Or.inr hx)
        · exact Or.inr ⟨q, hq, hx⟩

theorem nodup_foldl_parseStep (mn mx : Int) : ∀ (parts : List (List Char)) (acc : List Int),
    acc.Nodup → (parts.foldl (parseStep mn mx) acc).Nodup := by
  intro parts
  induction parts with
  | nil => intro acc h; exact h
  | cons p ps ih => intro acc h; exact ih _ (nodup_parseStep mn mx acc p h)

theorem digPre_nonneg {s : List Char} {v : Int} (h : digPre s = some v) : 0 ≤ v := by
  simp only [digPre] at h
  by_cases he : (s.takeWhile isDig).isEmpty
  · rw [if_pos he] at h
    exact absurd h (by simp)
  · rw [if_neg he] at h
    injection h with h2
    rw [← h2]
    exact Int.natCast_nonneg _

theorem mem_of_mem_dropWhile {pp : Char → Bool} {c : Char} {y : List Char}
    (h : c ∈ y.dropWhile pp) : c ∈ y :=
  (List.dropWhile_sublist pp).subset h

theorem mem_of_mem_jsTrim {c : Char} {y : List Char} (h : c ∈ jsTrim y) : c ∈ y := by
  unfold jsTrim at h
  rw [List.mem_reverse] at h
  have h2 := mem_of_mem_dropWhile h
  rw [List.mem_reverse] at h2
  exact mem_of_mem_dropWhile h2

theorem jsParseInt_nonneg {z : List Char} (hz : ('-' : Char) ∉ z) {v : Int}
    (h : jsParseInt z = some v) : 0 ≤ v := by
  unfold jsParseInt at h
  rcases hd : z.dropWhile isWs with _ | ⟨c, r⟩
  · rw [hd] at h
    simp at h
  · have hc : c ≠ '-' := by
      intro hcc
      subst hcc
      exact hz (mem_of_mem_dropWhile (by rw [hd]; exact List.mem_cons_self _ _))
    rw [hd] at h
    have h' : (if c = '-' then (digPre r).map (fun n => -n)
        else if c = '+' then digPre r else digPre (c :: r)) = some v := h
    rw [if_neg hc] at h'
    by_cases hp : c = '+'
    · rw [if_pos hp] at h'
      exact digPre_nonneg h'
    · rw [if_neg hp] at h'
      exact digPre_nonneg h'

theorem rep1Aux_other {c : Char} (hws : isWs c = false) (hhy : c ≠ '-') (pend cs : List Char) :
    rep1Aux pend (c :: cs) = pend.reverse ++ c :: rep1Aux [] cs := by
  simp [rep1Aux, hws, hhy]

theorem hyphen_mem_rep1Aux : ∀ (p pend : List Char), '-' ∈ p → '-' ∈ rep1Aux pend p := by
  intro p
  induction p with
  | nil => intro pend h; simp at h
  | cons c cs ih =>
    intro pend h
    by_cases hcw : isWs c
    · rw [rep1Aux_ws hcw]
      rcases List.mem_cons.mp h with heq | hin
      · rw [← heq] at hcw
        exact absurd hcw (by decide)
      · exact ih (c :: pend) hin
    · by_cases hch : c = '-'
      · subst hch
        rw [rep1Aux_hyphen]
        exact List.mem_cons_self _ _
      · rw [rep1Aux_other (by simpa using hcw) hch]
        rcases List.mem_cons.mp h with heq | hin
        · exact absurd heq.symm hch
        · exact List.mem_append.mpr (Or.inr (List.mem_cons_of_mem _ (ih [] hin)))

theorem codeCovered_bounds {mn mx : Int} {part : List Char} :
    ∀ x ∈ codeCovered mn mx part, (mn ≤ x ∧ x ≤ mx) ∧ 0 ≤ x := by
  intro x hx
  by_cases h1 : (replace1 part).contains '-' = true
  · rcases hsp : splitC '-' (replace1 part) with _ | ⟨st, rest⟩
    · simp only [codeCovered, h1, hsp] at hx
      exact absurd hx (List.not_mem_nil x)
    · rcases rest with _ | ⟨en, rest2⟩
      · simp only [codeCovered, h1, hsp] at hx
        exact absurd hx (List.not_mem_nil x)
      · simp only [codeCovered, h1, hsp] at hx
        rcases hpa : jsParseInt (jsTrim st) with _ | a
        · rw [hpa] at hx
          exact absurd hx (List.not_mem_nil x)
        · rcases hpb : jsParseInt (jsTrim en) with _ | b
          · rw [hpa, hpb] at hx
            exact absurd hx (List.not_mem_nil x)
          · rw [hpa, hpb] at hx
            have hx' : x ∈ (if (decide (a ≥ mn) && decide (b ≤ mx) && decide (a ≤ b)) = true
                then intRange a b else []) := hx
            by_cases hcond : (decide (a ≥ mn) && decide (b ≤ mx) && decide (a ≤ b)) = true
            · rw [if_pos hcond] at hx'
              simp only [Bool.and_eq_true, decide_eq_true_eq, ge_iff_le] at hcond
              rw [mem_intRange] at hx'
              have hann : 0 ≤ a := by
                have hst : ('-' : Char) ∉ st :=
                  splitC_sep_not_mem '-' (replace1 part) st (by rw [hsp]; exact List.mem_cons_self _ _)
                exact jsParseInt_nonneg (fun hm => hst (mem_of_mem_jsTrim hm)) hpa
              constructor
              · constructor
                · omega
                · have := hcond.1.2
                  omega
              · omega
            · rw [if_neg hcond] at hx'
              exact absurd hx' (List.not_mem_nil x)
  · have h1' : (replace1 part).contains '-' = false := by simpa using h1
    simp only [codeCovered, h1'] at hx
    rcases hpn : jsParseInt part with _ | n
    · rw [hpn] at hx
      exact absurd hx (List.not_mem_nil x)
    · rw [hpn] at hx
      have hx' : x ∈ (if (decide (n ≥ mn) && decide (n ≤ mx)) = true then [n] else []) := hx
      by_cases hcond : (decide (n ≥ mn) && decide (n ≤ mx)) = true
      · rw [if_pos hcond] at hx'
        rw [List.mem_singleton] at hx'
        subst hx'
        simp only [Bool.and_eq_true, decide_eq_true_eq, ge_iff_le] at hcond
        have hnn : 0 ≤ x := by
          have hnp : ('-' : Char) ∉ part := by
            intro hm
            have : ('-' : Char) ∈ replace1 part := hyphen_mem_rep1Aux part [] hm
            rw [← List.elem_iff] at this
            rw [show (replace1 part).elem '-' = (replace1 part).contains '-' from rfl, h1'] at this
            exact Bool.noConfusion this
          exact jsParseInt_nonneg hnp hpn
        exact ⟨⟨hcond.1, hcond.2⟩, hnn⟩
      · rw [if_neg hcond] at hx'
        exact absurd hx' (List.not_mem_nil x)

theorem wsRun_of_jsTrim_nil {s : List Char} (h : jsTrim s = []) : WsRun s := by
  unfold jsTrim at h
  rw [List.reverse_eq_nil_iff] at h
  have h2 := wsRun_of_dropWhile_nil h
  have h3 : WsRun (s.dropWhile isWs) := fun c hc => h2 c (List.mem_reverse.mpr hc)
  rcases hd : s.dropWhile isWs with _ | ⟨c, r⟩
  · exact wsRun_of_dropWhile_nil hd
  · have hcw : isWs c = false := by
      have h0 := List.head?_dropWhile_not isWs s
      rw [hd] at h0
      simpa using h0
    have : isWs c = true := h3 c (by rw [hd]; exact List.mem_cons_self _ _)
    rw [hcw] at this
    exact Bool.noConfusion this

theorem splitC_mem_subset (sep : Char) : ∀ (s : List Char), ∀ p ∈ splitC sep s, ∀ c ∈ p, c ∈ s := by
  intro s
  induction s with
  | nil =>
    intro p hp c hc
    simp only [splitC, List.mem_singleton] at hp
    subst hp
    simp at hc
  | cons a as ih =>
    intro p hp c hc
    obtain ⟨h2, tl2, hcs⟩ : ∃ h2 tl2, splitC sep as = h2 :: tl2 := by
      rcases hx : splitC sep as with _ | ⟨u, v⟩
      · exact absurd hx (splitC_ne_nil sep as)
      · exact ⟨u, v, rfl⟩
    by_cases ha : a = sep
    · subst ha
      simp only [splitC, if_pos rfl] at hp
      rcases List.mem_cons.mp hp with rfl | hp2
      · simp at hc
      · exact List.mem_cons_of_mem a (ih p hp2 c hc)
    · rw [splitC_cons_of_ne ha as h2 tl2 hcs] at hp
      rcases List.mem_cons.mp hp with rfl | hp2
      · rcases List.mem_cons.mp hc with rfl | hc2
        · exact List.mem_cons_self c as
        · exact List.mem_cons_of_mem a
            (ih h2 (by rw [hcs]; exact List.mem_cons_self h2 tl2) c hc2)
      · exact List.mem_cons_of_mem a
          (ih p (by rw [hcs]; exact List.mem_cons_of_mem h2 hp2) c hc)

/-- Characterization of `parseNumericRange`: the fold with on-the-fly
de-duplication followed by the final sort computes the sorted de-duplicated
concatenation of the per-part covered values. -/
theorem parse_characterization (s : List Char) (mn mx : Int) :
    parseNumericRange (some s) mn mx = List.insertionSort (· ≤ ·)
      (((((splitC ',' s).map jsTrim).filter (fun p => !p.isEmpty)).map
        (codeCovered mn mx)).flatten.dedup) := by
  by_cases hb : (jsTrim s).isEmpty
  · have hsw : WsRun s := wsRun_of_jsTrim_nil (by simpa using hb)
    have hparts : ((splitC ',' s).map jsTrim).filter (fun p => !p.isEmpty) = [] := by
      rw [List.filter_eq_nil_iff]
      intro a ha
      rw [List.mem_map] at ha
      obtain ⟨p, hp, rfl⟩ := ha
      have hpw : WsRun p := fun c hc => hsw c (splitC_mem_subset ',' s p hp c hc)
      rw [jsTrim_of_wsRun hpw]
      simp
    have hL : parseNumericRange (some s) mn mx = [] := by
      simp [parseNumericRange, hb]
    rw [hL, hparts]
    rfl
  · have hb' : (jsTrim s).isEmpty = false := by simpa using hb
    have hL : parseNumericRange (some s) mn mx = List.insertionSort (· ≤ ·)
        ((((splitC ',' s).map jsTrim).filter (fun p => !p.isEmpty)).foldl (parseStep mn mx) []) := by
      simp [parseNumericRange, hb']
    rw [hL]
    have hnd1 : ((((splitC ',' s).map jsTrim).filter (fun p => !p.isEmpty)).foldl
        (parseStep mn mx) []).Nodup := nodup_foldl_parseStep mn mx _ [] List.nodup_nil
    have hperm : List.Perm
        ((((splitC ',' s).map jsTrim).filter (fun p => !p.isEmpty)).foldl (parseStep mn mx) [])
        (((((splitC ',' s).map jsTrim).filter (fun p => !p.isEmpty)).map
          (codeCovered mn mx)).flatten.dedup) := by
      rw [List.perm_ext_iff_of_nodup hnd1 (List.nodup_dedup _)]
      intro x
      rw [mem_foldl_parseStep, List.mem_dedup, List.mem_flatten]
      constructor
      · rintro (h | ⟨p, hp, hx⟩)
        · simp at h
        · exact ⟨codeCovered mn mx p, List.mem_map_of_mem _ hp, hx⟩
      · rintro ⟨L, hL2, hx⟩
        rw [List.mem_map] at hL2
        obtain ⟨p, hp, rfl⟩ := hL2
        exact Or.inr ⟨p, hp, hx⟩
    exact List.eq_of_perm_of_sorted
      ((List.perm_insertionSort _ _).trans (hperm.trans (List.perm_insertionSort _ _).symm))
      (List.sorted_insertionSort _ _) (List.sorted_insertionSort _ _)

/-- Global properties of `parseNumericRange`: output sorted, duplicate-free,
within bounds and non-negative — for every input whatsoever. -/
theorem parse_props (r : Option (List Char)) (mn mx : Int) :
    (parseNumericRange r mn mx).Sorted (· ≤ ·) ∧ (parseNumericRange r mn mx).Nodup ∧
      ∀ x ∈ parseNumericRange r mn mx, (mn ≤ x ∧ x ≤ mx) ∧ 0 ≤ x := by
  rcases r with _ | s
  · exact ⟨List.sorted_nil, List.nodup_nil, fun x hx => absurd hx (List.not_mem_nil x)⟩
  · by_cases hb : (jsTrim s).isEmpty
    · have hL : parseNumericRange (some s) mn mx = [] := by
        simp [parseNumericRange, hb]
      rw [hL]
      exact ⟨List.sorted_nil, List.nodup_nil, fun x hx => absurd hx (List.not_mem_nil x)⟩
    · have hb' : (jsTrim s).isEmpty = false := by simpa using hb
      have hL : parseNumericRange (some s) mn mx = List.insertionSort (· ≤ ·)
          ((((splitC ',' s).map jsTrim).filter (fun p => !p.isEmpty)).foldl
            (parseStep mn mx) []) := by
        simp [parseNumericRange, hb']
      rw [hL]
      refine ⟨List.sorted_insertionSort _ _, ?_, ?_⟩
      · exact (List.perm_insertionSort _ _).nodup_iff.mpr
          (nodup_foldl_parseStep mn mx _ [] List.nodup_nil)
      · intro x hx
        rw [List.mem_insertionSort, mem_foldl_parseStep] at hx
        rcases hx with hx | ⟨p, hp, hx⟩
        · exact absurd hx (List.not_mem_nil x)
        · exact codeCovered_bounds x hx

/-! ## Claim theorems -/

/-- C1 (counterexample): the claim's iff fails.  For `s = "11 , 12"` with
bounds `[1, 100]`, every comma-separated token of `s` — after trimming and
hyphen-normalization — is a single integer in bounds (`11` and `12`), so the
claim says `validateNumericRange` returns `true`; but the code returns
`false`, because its format regex allows whitespace after commas only, not
before them. -/
theorem claim_C1_counterexample :
    validateNumericRange (some "11 , 12".data) 1 100 = false ∧
      claimValidC1 "11 , 12".data 1 100 = true := by
  constructor
  · decide
  · decide

/-- C1 (amended): `validateNumericRange(s, min, max)` is true iff `s` is
blank, or the trimmed `s` with whitespace normalized around hyphens matches
`\d+(-\d+)?(,\s*\d+(-\d+)?)*` — i.e. further whitespace may only follow a
comma — and every comma-separated token (after trimming and normalizing
whitespace around `'-'`) is a single integer in `[min,max]` or a span `a-b`
with `a ≤ b` and both endpoints in `[min,max]`. -/
theorem claim_C1 (s : List Char) (mn mx : Int) :
    validateNumericRange (some s) mn mx = claimValidAmended s mn mx := by
  by_cases hb : (jsTrim s).isEmpty
  · simp [validateNumericRange, claimValidAmended, hb]
  · have hb' : (jsTrim s).isEmpty = false := by simpa using hb
    by_cases hreg : regexFormat (normAll (jsTrim s)) = true
    · have hshape := shape_of_regexFormat hreg
      simp only [validateNumericRange, claimValidAmended, hb', hreg, Bool.not_true,
        Bool.false_eq_true, if_false, Bool.false_or, Bool.true_and]
      exact all_congr_mem (fun p hp => partSem_eq_tokSemOk_of_shape (hshape p hp) mn mx)
    · have hreg' : regexFormat (normAll (jsTrim s)) = false := by simpa using hreg
      simp [validateNumericRange, claimValidAmended, hb', hreg']

theorem validate_parts (s : List Char) (mn mx : Int)
    (hv : validateNumericRange (some s) mn mx = true) (hb : (jsTrim s).isEmpty = false) :
    regexFormat (normAll (jsTrim s)) = true ∧
      ∀ p ∈ splitC ',' (jsTrim s), partSem mn mx p = true := by
  by_cases hreg : regexFormat (normAll (jsTrim s)) = true
  · refine ⟨hreg, ?_⟩
    simp only [validateNumericRange, hb, hreg, Bool.not_true, Bool.false_eq_true, if_false] at hv
    exact fun p hp => List.all_eq_true.mp hv p hp
  · exfalso
    have hreg' : regexFormat (normAll (jsTrim s)) = false := by simpa using hreg
    simp [validateNumericRange, hb, hreg'] at hv

/-- C9: for every input — valid, malformed, blank or absent — and any bounds
`min ≤ max`, `parseNumericRange` returns a strictly increasing (hence
duplicate-free) list whose every element lies within `[min, max]`. -/
theorem claim_C9 (r : Option (List Char)) (mn mx : Int) (h : mn ≤ mx) :
    (parseNumericRange r mn mx).Sorted (· < ·) ∧ (parseNumericRange r mn mx).Nodup ∧
      ∀ x ∈ parseNumericRange r mn mx, mn ≤ x ∧ x ≤ mx := by
  obtain ⟨hs, hn, hbd⟩ := parse_props r mn mx
  refine ⟨?_, hn, fun x hx => (hbd x hx).1⟩
  exact (hs.and hn).imp (fun hab => lt_of_le_of_ne hab.1 hab.2)

/-- C9 (witness): evaluated at a malformed input with out-of-bounds and
duplicated tokens. -/
theorem claim_C9_witness :
    (1 : Int) ≤ 10 ∧
      ((parseNumericRange (some "5, 1-3, x, 20, 3".data) 1 10).Sorted (· < ·) ∧
        (parseNumericRange (some "5, 1-3, x, 20, 3".data) 1 10).Nodup ∧
        ∀ x ∈ parseNumericRange (some "5, 1-3, x, 20, 3".data) 1 10, 1 ≤ x ∧ x ≤ 10) :=
  ⟨by decide, claim_C9 (some "5, 1-3, x, 20, 3".data) 1 10 (by decide)⟩

/-- C3 (counterexample): the claim fails.  `"1,x"` is rejected by
`validateNumericRange`, yet `parseNumericRange` neither raises an error nor
returns the empty list: it returns the non-empty partial list `[1]` built
from the well-formed token `1`. -/
theorem claim_C3_counterexample :
    validateNumericRange (some "1,x".data) 1 10 = false ∧
      parseNumericRange (some "1,x".data) 1 10 = [1] := by
  constructor
  · decide
  · decide

/-- C3 (amended): for every non-blank `s` rejected by `validateNumericRange`,
`parseNumericRange` does not reject: it best-effort expands, returning the
sorted duplicate-free union of the values of exactly those tokens that
individually parse and fall within bounds (a possibly non-empty partial
list); every returned element still lies within `[min, max]`. -/
theorem claim_C3 (s : List Char) (mn mx : Int)
    (h : validateNumericRange (some s) mn mx = false) :
    parseNumericRange (some s) mn mx = List.insertionSort (· ≤ ·)
      (((((splitC ',' s).map jsTrim).filter (fun p => !p.isEmpty)).map
        (codeCovered mn mx)).flatten.dedup) ∧
      ∀ x ∈ parseNumericRange (some s) mn mx, mn ≤ x ∧ x ≤ mx :=
  ⟨parse_characterization s mn mx, fun x hx => ((parse_props _ mn mx).2.2 x hx).1⟩

/-- C3 (witness): the amended statement evaluated on the counterexample
input. -/
theorem claim_C3_witness :
    validateNumericRange (some "1,x".data) 1 10 = false ∧
      (parseNumericRange (some "1,x".data) 1 10 = List.insertionSort (· ≤ ·)
        (((((splitC ',' "1,x".data).map jsTrim).filter (fun p => !p.isEmpty)).map
          (codeCovered 1 10)).flatten.dedup) ∧
        ∀ x ∈ parseNumericRange (some "1,x".data) 1 10, 1 ≤ x ∧ x ≤ 10) :=
  ⟨by decide, claim_C3 "1,x".data 1 10 (by decide)⟩

/-- C2: on every string accepted by `validateNumericRange`,
`parseNumericRange` returns exactly the sorted duplicate-free set-union of
the integers covered by the string's comma-separated tokens; blank input
yields the empty list, and `"4-6"` within `[4, 32]` yields `[4, 5, 6]`. -/
theorem claim_C2 :
    (∀ (s : List Char) (mn mx : Int), validateNumericRange (some s) mn mx = true →
      parseNumericRange (some s) mn mx = claimUnion s) ∧
    (∀ (s : List Char) (mn mx : Int), jsTrim s = [] →
      parseNumericRange (some s) mn mx = []) ∧
    parseNumericRange (some "4-6".data) 4 32 = [4, 5, 6] := by
  refine ⟨?_, fun s mn mx hnil => by simp [parseNumericRange, hnil], by decide⟩
  · intro s mn mx hv
    by_cases hb : (jsTrim s).isEmpty
    · have hnil : jsTrim s = [] := by simpa using hb
      have hL : parseNumericRange (some s) mn mx = [] := by simp [parseNumericRange, hb]
      rw [hL, claimUnion, hnil]
      rfl
    · have hb' : (jsTrim s).isEmpty = false := by simpa using hb
      obtain ⟨hreg, hall⟩ := validate_parts s mn mx hv hb'
      have hshape := shape_of_regexFormat hreg
      have hbridge := map_jsTrim_splitC_jsTrim s
      rw [parse_characterization, claimUnion]
      apply List.eq_of_perm_of_sorted ?_ (List.sorted_insertionSort _ _)
        (List.sorted_insertionSort _ _)
      refine (List.perm_insertionSort _ _).trans
        (List.Perm.trans ?_ (List.perm_insertionSort _ _).symm)
      rw [List.perm_ext_iff_of_nodup (List.nodup_dedup _) (List.nodup_dedup _)]
      intro x
      rw [List.mem_dedup, List.mem_dedup, List.mem_flatten, List.mem_flatten]
      constructor
      · rintro ⟨L, hl, hx⟩
        rw [List.mem_map] at hl
        obtain ⟨p, hp, rfl⟩ := hl
        rw [List.mem_filter] at hp
        obtain ⟨hp1, hp2⟩ := hp
        rw [hbridge, List.mem_map] at hp1
        obtain ⟨q, hq, rfl⟩ := hp1
        have hsem := hall q hq
        have hshq := hshape q hq
        refine ⟨coveredSpec (replace1 (jsTrim q)), List.mem_map_of_mem _ hq, ?_⟩
        rw [← codeCovered_eq_coveredSpec_of_shape hshq hsem]
        exact hx
      · rintro ⟨L, hl, hx⟩
        rw [List.mem_map] at hl
        obtain ⟨q, hq, rfl⟩ := hl
        have hsem := hall q hq
        have hshq := hshape q hq
        refine ⟨codeCovered mn mx (jsTrim q), ?_, ?_⟩
        · rw [List.mem_map]
          refine ⟨jsTrim q, ?_, rfl⟩
          rw [List.mem_filter]
          refine ⟨?_, ?_⟩
          · rw [hbridge]
            exact List.mem_map_of_mem _ hq
          · simpa using jsTrim_shape_ne_nil hshq
        · rw [codeCovered_eq_coveredSpec_of_shape hshq hsem]
          exact hx

/-- C2 (witness): the accepted-input clause evaluated on a concrete
accepted range string. -/
theorem claim_C2_witness :
    validateNumericRange (some "11, 23 - 25, 3".data) 1 100 = true ∧
      parseNumericRange (some "11, 23 - 25, 3".data) 1 100 = claimUnion "11, 23 - 25, 3".data :=
  ⟨by decide, claim_C2.1 "11, 23 - 25, 3".data 1 100 (by decide)⟩

theorem isDig_digitChar {m : Nat} (h : m < 10) : isDig (digitChar m) = true := by
  interval_cases m <;> decide

theorem digitVal_digitChar {m : Nat} (h : m < 10) : digitVal (digitChar m) = m := by
  interval_cases m <;> decide

theorem natCharsAux_all_dig : ∀ (fuel n : Nat), ∀ c ∈ natCharsAux fuel n, isDig c = true := by
  intro fuel
  induction fuel with
  | zero => intro n c hc; simp [natCharsAux] at hc
  | succ f ih =>
    intro n c hc
    simp only [natCharsAux] at hc
    by_cases hn : n < 10
    · rw [if_pos hn] at hc
      simp only [List.mem_singleton] at hc
      subst hc
      exact isDig_digitChar hn
    · rw [if_neg hn] at hc
      rcases List.mem_append.mp hc with hc | hc
      · exact ih _ c hc
      · simp only [List.mem_singleton] at hc
        subst hc
        exact isDig_digitChar (Nat.mod_lt n (by norm_num))

theorem natCharsAux_ne_nil (fuel n : Nat) : natCharsAux (fuel + 1) n ≠ [] := by
  simp only [natCharsAux]
  by_cases hn : n < 10
  · rw [if_pos hn]; simp
  · rw [if_neg hn]; simp

theorem digRun_natChars (n : Nat) : DigRun (natChars n) :=
  ⟨natCharsAux_ne_nil n n, fun c hc => natCharsAux_all_dig (n + 1) n c hc⟩

theorem natVal_append (ds : List Char) (c : Char) :
    natVal (ds ++ [c]) = 10 * natVal ds + digitVal c := by
  simp [natVal, List.foldl_append]

theorem natVal_natCharsAux : ∀ (fuel n : Nat), n < 10 ^ fuel →
    natVal (natCharsAux fuel n) = n := by
  intro fuel
  induction fuel with
  | zero =>
    intro n hn
    have h1 : n < 1 := by simpa using hn
    have h0 : n = 0 := Nat.lt_one_iff.mp h1
    subst h0; rfl
  | succ f ih =>
    intro n hn
    simp only [natCharsAux]
    by_cases h10 : n < 10
    · rw [if_pos h10]
      simp [natVal, digitVal_digitChar h10]
    · rw [if_neg h10, natVal_append, ih (n / 10) ?_, digitVal_digitChar (Nat.mod_lt n (by norm_num))]
      · exact Nat.div_add_mod n 10
      · rw [Nat.div_lt_iff_lt_mul (by norm_num : 0 < 10)]
        calc n < 10 ^ (f + 1) := hn
        _ = 10 ^ f * 10 := by ring

theorem natVal_natChars (n : Nat) : natVal (natChars n) = n := by
  apply natVal_natCharsAux
  calc n < 10 ^ n := Nat.lt_pow_self (by norm_num) n
  _ ≤ 10 ^ (n + 1) := Nat.pow_le_pow_right (by norm_num) (Nat.le_succ n)

theorem comma_not_mem_intChars (x : Int) : (',' : Char) ∉ intChars x := by
  intro hm
  simp only [intChars] at hm
  by_cases hx : x < 0
  · rw [if_pos hx] at hm
    rcases List.mem_cons.mp hm with hm | hm
    · exact absurd hm (by decide)
    · exact absurd ((digRun_natChars _).2 ',' hm) (by decide)
  · rw [if_neg hx] at hm
    exact absurd ((digRun_natChars _).2 ',' hm) (by decide)

theorem splitC_intercalC {sep : Char} : ∀ (ps : List (List Char)), ps ≠ [] →
    (∀ p ∈ ps, sep ∉ p) → splitC sep (intercalC sep ps) = ps := by
  intro ps
  induction ps with
  | nil => intro h; exact absurd rfl h
  | cons p ps ih =>
    intro _ hmem
    rcases ps with _ | ⟨q, qs⟩
    · show splitC sep p = [p]
      exact splitC_of_not_mem (hmem p (List.mem_cons_self p _))
    · show splitC sep (p ++ sep :: intercalC sep (q :: qs)) = p :: q :: qs
      have hrest : splitC sep (sep :: intercalC sep (q :: qs)) = [] :: (q :: qs) := by
        have hstep : splitC sep (sep :: intercalC sep (q :: qs)) =
            [] :: splitC sep (intercalC sep (q :: qs)) := by
          simp [splitC]
        rw [hstep, ih (by simp) (fun r hr => hmem r (List.mem_cons_of_mem p hr))]
      have happ := splitC_append_of_not_mem (hmem p (List.mem_cons_self p _))
        (sep :: intercalC sep (q :: qs)) [] (q :: qs) hrest
      simpa using happ

theorem flatten_map_singleton (l : List Int) : (l.map (fun x => [x])).flatten = l := by
  induction l with
  | nil => rfl
  | cons a t ih => simp [ih]

theorem parse_serialize (mn mx : Int) (l : List Int) (hsorted : l.Sorted (· ≤ ·))
    (hnd : l.Nodup) (hpos : ∀ x ∈ l, 0 ≤ x) (hbd : ∀ x ∈ l, mn ≤ x ∧ x ≤ mx) :
    parseNumericRange (some (serializeNums l)) mn mx = l := by
  by_cases hne : l = []
  · subst hne; rfl
  · have hql : splitC ',' (serializeNums l) = l.map intChars := by
      rw [serializeNums]
      apply splitC_intercalC
      · simpa using hne
      · intro p hp
        rw [List.mem_map] at hp
        obtain ⟨x, _, rfl⟩ := hp
        exact comma_not_mem_intChars x
    have hchars : ∀ x ∈ l, intChars x = natChars x.toNat := by
      intro x hx
      rw [intChars, if_neg (not_lt.mpr (hpos x hx))]
    have h1 : (splitC ',' (serializeNums l)).map jsTrim = l.map (fun x => natChars x.toNat) := by
      rw [hql, List.map_map]
      apply List.map_congr_left
      intro x hx
      simp only [Function.comp_apply]
      rw [hchars x hx]
      exact jsTrim_digRun (digRun_natChars _)
    have h2 : (l.map (fun x => natChars x.toNat)).filter (fun p => !p.isEmpty) =
        l.map (fun x => natChars x.toNat) := by
      apply List.filter_eq_self.mpr
      intro p hp
      rw [List.mem_map] at hp
      obtain ⟨x, _, rfl⟩ := hp
      simpa using (digRun_natChars x.toNat).1
    have h3 : ∀ x ∈ l, codeCovered mn mx (natChars x.toNat) = [x] := by
      intro x hx
      have hd := digRun_natChars x.toNat
      have hrep : replace1 (natChars x.toNat) = natChars x.toNat := replace1_digRun hd.2
      have hcont : (natChars x.toNat).contains '-' = false := contains_hyphen_of_digRun hd.2
      simp only [codeCovered, hrep, hcont, Bool.false_eq_true, if_false]
      rw [jsParseInt_digRun hd, natVal_natChars, Int.toNat_of_nonneg (hpos x hx)]
      have e1 : decide (x ≥ mn) = true := decide_eq_true (hbd x hx).1
      have e2 : decide (x ≤ mx) = true := decide_eq_true (hbd x hx).2
      simp [e1, e2]
    have h4 : (l.map (fun x => natChars x.toNat)).map (codeCovered mn mx) =
        l.map (fun x => [x]) := by
      rw [List.map_map]
      apply List.map_congr_left
      intro x hx
      simp only [Function.comp_apply]
      exact h3 x hx
    rw [parse_characterization, h1, h2, h4, flatten_map_singleton,
      List.dedup_eq_self.mpr hnd]
    exact List.eq_of_perm_of_sorted (List.perm_insertionSort _ l)
      (List.sorted_insertionSort _ l) hsorted

/-- C4: for every range string accepted within `[min, max]`, expanding with
`parseNumericRange`, re-serializing the resulting list as a comma-separated
string, and expanding again with the same bounds yields the first expansion
(round-trip idempotence). -/
theorem claim_C4 (s : List Char) (mn mx : Int)
    (hv : validateNumericRange (some s) mn mx = true) :
    parseNumericRange (some (serializeNums (parseNumericRange (some s) mn mx))) mn mx =
      parseNumericRange (some s) mn mx := by
  obtain ⟨hs, hnd, hb⟩ := parse_props (some s) mn mx
  exact parse_serialize mn mx _ hs hnd (fun x hx => (hb x hx).2) (fun x hx => (hb x hx).1)

/-- C4 (witness): the round trip evaluated on a concrete accepted range
string. -/
theorem claim_C4_witness :
    validateNumericRange (some "2-4, 9".data) 1 20 = true ∧
      parseNumericRange (some (serializeNums (parseNumericRange (some "2-4, 9".data) 1 20))) 1 20 =
        parseNumericRange (some "2-4, 9".data) 1 20 :=
  ⟨by decide, claim_C4 "2-4, 9".data 1 20 (by decide)⟩

/-- C5 (counterexample): the claim fails.  A `range` setting whose `format`
is `string[]` disagrees with its `field_type`, yet `loadBuildSettings`
accepts the schema: the code only checks that `format` is one of
`number`/`string`/`string[]` and never reads `field_type`. -/
theorem claim_C5_counterexample :
    loadBuildSettings ⟨some [⟨"range", some "string[]"⟩]⟩ =
      Except.ok ⟨some [⟨"range", some "string[]"⟩]⟩ ∧
      formatAgrees ⟨"range", some "string[]"⟩ = false := by
  constructor
  · rfl
  · rfl

/-- C5 (amended): `loadBuildSettings` returns the schema exactly when
`build_settings` is present and every setting's `format` is one of the
allowed tags `number`/`string`/`string[]`; the check is independent of
`field_type` (no format/field_type agreement is enforced). -/
theorem claim_C5 (schema : Schema) :
    ((loadBuildSettings schema = Except.ok schema) ↔
      (match schema.build_settings with
       | some l => l.all settingFormatOk
       | none => false) = true) ∧
    ∀ (st : ScmSetting) (ft : String),
      settingFormatOk { st with field_type := ft } = settingFormatOk st := by
  constructor
  · by_cases hok : (match schema.build_settings with
        | some l => l.all settingFormatOk
        | none => false) = true
    · simp [loadBuildSettings, hok]
    · have hok' : (match schema.build_settings with
          | some l => l.all settingFormatOk
          | none => false) = false := by simpa using hok
      simp [loadBuildSettings, hok']
  · intro st ft
    rfl

/-- C6: for a checkbox group with `min_selected = k`, a change whose
resulting selection has fewer than `k` options is rejected — the validation
error is recorded and the old value kept — and a change leaving at least `k`
options clears the error and commits the new selection.  This holds for both
handlers (`updateCheckboxGroup` in BuildSettings.vue, `updateOptions` in
AdditionalOptions.vue); note `k = 0` can never trigger the rejection, so the
JavaScript truthiness guard on `min_selected` is invisible. -/
theorem claim_C6 (k : Nat) (cur : List String) (value : String) (checked : Bool) :
    updateCheckboxGroup (some k) cur value checked =
      (if (newSelection cur value checked).length < k
       then (cur, minSelectedMsg k) else (newSelection cur value checked, "")) ∧
    updateOptions (some k) cur value =
      (if (toggledSelection cur value).length < k
       then (cur, minSelectedMsg k) else (toggledSelection cur value, "")) := by
  constructor
  · simp only [updateCheckboxGroup]
    by_cases h : (newSelection cur value checked).length < k
    · rw [if_pos ⟨by omega, h⟩, if_pos h]
    · rw [if_neg (fun hc => h hc.2), if_neg h]
  · simp only [updateOptions]
    by_cases h : (toggledSelection cur value).length < k
    · rw [if_pos ⟨by omega, h⟩, if_pos h]
    · rw [if_neg (fun hc => h hc.2), if_neg h]

/-- C7 (counterexample): the claim fails.  A payload beginning with
`stdout:` whose remainder is blank updates `currentStdout` (to the empty
string) but is NOT appended to the log list, contradicting the claim that
every `stdout:` payload is appended. -/
theorem claim_C7_counterexample :
    "stdout:   ".data.take 7 = stdoutTag ∧
      buildLogStep "12:00:00".data "stdout:   ".data ["old".data] "x".data =
        (["old".data], []) := by
  constructor
  · rfl
  · rfl

/-- C7 (amended): the `build-log` listener categorizes each payload by its
7-character prefix alone: a `stdout:` payload sets `currentStdout` to the
trimmed remainder and appends it as `[ts] line` only when that remainder is
non-blank; a `stderr:` payload appends `[ts] [ERROR] line` only when the
trimmed remainder is non-blank (leaving `currentStdout` unchanged); any
other payload is appended verbatim as `[ts] payload`. -/
theorem claim_C7 (ts payload : List Char) (logs : List (List Char)) (cur : List Char) :
    (payload.take 7 = stdoutTag →
      buildLogStep ts payload logs cur =
        ((if jsTrim (payload.drop 7) = [] then logs
          else logs ++ [fmtLine ts (jsTrim (payload.drop 7))]), jsTrim (payload.drop 7))) ∧
    (payload.take 7 ≠ stdoutTag → payload.take 7 = stderrTag →
      buildLogStep ts payload logs cur =
        ((if jsTrim (payload.drop 7) = [] then logs
          else logs ++ [fmtLine ts (errorTag ++ jsTrim (payload.drop 7))]), cur)) ∧
    (payload.take 7 ≠ stdoutTag → payload.take 7 ≠ stderrTag →
      buildLogStep ts payload logs cur = (logs ++ [fmtLine ts payload], cur)) := by
  refine ⟨?_, ?_, ?_⟩
  · intro hso
    simp only [buildLogStep, if_pos hso]
    by_cases hb : jsTrim (payload.drop 7) = []
    · simp [hb]
    · have hb' : (jsTrim (payload.drop 7)).isEmpty = false := by
        simpa [List.isEmpty_iff] using hb
      simp [hb, hb']
  · intro hso hse
    simp only [buildLogStep, if_neg hso, if_pos hse]
    by_cases hb : jsTrim (payload.drop 7) = []
    · simp [hb]
    · have hb' : (jsTrim (payload.drop 7)).isEmpty = false := by
        simpa [List.isEmpty_iff] using hb
      simp [hb, hb']
  · intro hso hse
    simp only [buildLogStep, if_neg hso, if_neg hse]

/-- C7 (witness): the amended statement applied at a concrete `stderr:`
payload. -/
theorem claim_C7_witness :
    "stderr: oops".data.take 7 ≠ stdoutTag ∧ "stderr: oops".data.take 7 = stderrTag ∧
      buildLogStep "12:00:00".data "stderr: oops".data [] [] =
        ([fmtLine "12:00:00".data (errorTag ++ "oops".data)], []) := by
  refine ⟨by decide, by decide, ?_⟩
  have h := (claim_C7 "12:00:00".data "stderr: oops".data [] []).2.1
    (by decide) (by decide)
  rw [h]
  rfl

/-- C8: `handleCancel` invokes the backend cancel command exactly when
`buildStatus` is `building` and no cancellation is in flight; a repeated
cancel while already cancelling, or a cancel when no build is running,
invokes nothing and leaves the state unchanged. -/
theorem claim_C8 (st : BuildProcState) :
    ((handleCancel st).2 = true ↔
      st.isCancelling = false ∧ st.status = BuildStatus.building) ∧
    (st.isCancelling = true ∨ st.status ≠ BuildStatus.building →
      handleCancel st = (st, false)) := by
  constructor
  · constructor
    · intro h
      by_cases h1 : st.isCancelling
      · exfalso; simp [handleCancel, h1] at h
      · by_cases h2 : st.status = BuildStatus.building
        · exact ⟨by simpa using h1, h2⟩
        · exfalso; simp [handleCancel, h2] at h
    · rintro ⟨h1, h2⟩
      simp [handleCancel, h1, h2]
  · rintro (h | h)
    · simp [handleCancel, h]
    · simp [handleCancel, h]

/-- C10: `build` invokes `executeBuild` exactly when all four required
fields (`projectPath`, `buildDir`, `cubeIdeExePath`, `workspacePath`) are
set (neither null nor empty); when one is missing it sets the status to
`error`, appends exactly one error message naming precisely the missing
fields, and does not start a build; when none is missing it sets the status
to `building` and clears the messages. -/
theorem claim_C10 (s : UserSettings) (st : BuildProcState) :
    ((build s st).2 = true ↔
      isFalsy s.projectPath = false ∧ isFalsy s.buildDir = false ∧
        isFalsy s.cubeIdeExePath = false ∧ isFalsy s.workspacePath = false) ∧
    ((build s st).2 = false →
      (build s st).1.status = BuildStatus.error ∧
      (build s st).1.messages = st.messages ++
        [⟨"error", "Missing required fields: " ++ String.intercalate ", " (missingFields s)⟩]) ∧
    ((build s st).2 = true →
      (build s st).1.status = BuildStatus.building ∧ (build s st).1.messages = []) := by
  cases h1 : isFalsy s.projectPath <;> cases h2 : isFalsy s.buildDir <;>
    cases h3 : isFalsy s.cubeIdeExePath <;> cases h4 : isFalsy s.workspacePath <;>
    simp [build, missingFields, requiredFields, h1, h2, h3, h4]

end STM32
